import Mathlib

set_option linter.unusedVariables false

/-!
Verification of the blitz / blitztigerclaw core execution engine against its
specification.

This file is a shallow embedding, in Lean 4, of the parts of the code base
that the verified properties talk about:

* the dynamic value / row / dataset data model (spec section 3),
* the sandboxed expression evaluator (`blitztigerclaw/utils/expr.py`,
  `blitz/utils/expr.py` — the two files are identical in the modelled parts),
* the `transform` step (`blitz/steps/transform.py`), the `clean` step
  (`blitztigerclaw/steps/clean.py`), the `aggregate` step
  (`blitztigerclaw/steps/aggregate.py`) and the `join` step
  (`blitztigerclaw/steps/join.py`),
* the DAG model (`blitztigerclaw/dag.py`), the planner's fusion pass
  (`blitztigerclaw/planner.py`), the DAG executor
  (`blitztigerclaw/executor.py`), the sequential pipeline driver
  (`blitztigerclaw/pipeline.py`),
* the streaming primitives (`blitztigerclaw/stream.py`).

Modelling conventions:
* Python dicts used as rows are modelled as ordered association lists
  (`Row := List (String × Value)`); keys coming from Python dicts are unique.
* Python 64-bit floats are modelled as exact rationals.  Every float that
  appears in a verified property is produced by exact arithmetic on small
  integers, where IEEE doubles and rationals agree.
* Exceptions are modelled with `Except String` / `Option`; the message text
  is kept only where a property mentions it.
* I/O (HTTP, files, SQLite), wall-clock durations, memory tracking and the
  verbose printing are not modelled; no property below depends on them.
-/

/-- A Python float, modelled as an exact fraction kept in lowest terms
with a positive denominator.  Every float a verified property touches is
produced by exact arithmetic on small integers, where IEEE doubles and
exact fractions agree.  (A plain structure rather than mathlib `Rat` so
that every operation reduces inside the kernel.) -/
structure PyFloat where
  num : Int
  den : Nat
deriving Repr, DecidableEq

/-- Build a reduced fraction from a numerator and a positive denominator. -/
def PyFloat.norm (n : Int) (d : Nat) : PyFloat :=
  let g := Nat.gcd n.natAbs d
  if g = 0 then ⟨0, 1⟩ else ⟨n / (g : Int), d / g⟩

/-- The float of an integer. -/
def PyFloat.ofInt (n : Int) : PyFloat := ⟨n, 1⟩

instance (n : Nat) : OfNat PyFloat n := ⟨⟨(n : Int), 1⟩⟩

def PyFloat.add (a b : PyFloat) : PyFloat :=
  norm (a.num * b.den + b.num * a.den) (a.den * b.den)

def PyFloat.sub (a b : PyFloat) : PyFloat :=
  norm (a.num * b.den - b.num * a.den) (a.den * b.den)

def PyFloat.mul (a b : PyFloat) : PyFloat :=
  norm (a.num * b.num) (a.den * b.den)

/-- Division; the caller guards against a zero divisor. -/
def PyFloat.div (a b : PyFloat) : PyFloat :=
  if 0 ≤ b.num then norm (a.num * b.den) (a.den * b.num.natAbs)
  else norm (-(a.num * b.den)) (a.den * b.num.natAbs)

def PyFloat.neg (a : PyFloat) : PyFloat := ⟨-a.num, a.den⟩

/-- Whether the float is zero (denominators are positive). -/
def PyFloat.isZero (a : PyFloat) : Bool := a.num = 0

/-- Numeric strict order (denominators are positive). -/
def PyFloat.lt (a b : PyFloat) : Bool := a.num * b.den < b.num * a.den

/-- Numeric equality (coincides with structural equality on reduced
fractions). -/
def PyFloat.beqNum (a b : PyFloat) : Bool := a.num * b.den = b.num * a.den

/-- Mathematical floor. -/
def PyFloat.floor (a : PyFloat) : Int := Int.fdiv a.num a.den

/-- Truncation toward zero (Python `int(float)`). -/
def PyFloat.trunc (a : PyFloat) : Int :=
  if 0 ≤ a.num then (a.num.toNat / a.den : Nat)
  else -((a.num.natAbs / a.den : Nat) : Int)

/-- Python `min` of two floats (first wins ties). -/
def PyFloat.min2 (a b : PyFloat) : PyFloat := if PyFloat.lt b a then b else a

/-- Python `max` of two floats (first wins ties). -/
def PyFloat.max2 (a b : PyFloat) : PyFloat := if PyFloat.lt a b then b else a

/-- A dynamic value, as in spec section 3: null, bool, 64-bit int, float
(modelled as an exact fraction), string, list, or nested row. -/
inductive Value where
  | null
  | bool (b : Bool)
  | int (n : Int)
  | float (q : PyFloat)
  | str (s : String)
  | list (items : List Value)
  | dict (entries : List (String × Value))
deriving Repr

/-- A row: an ordered mapping from field names to values (a Python dict). -/
abbrev Row := List (String × Value)

/-- A dataset: a finite ordered sequence of rows. -/
abbrev Dataset := List Row

/-- Python `row.get(key)`: value of the first matching key, null if absent. -/
def rowGet (row : Row) (key : String) : Value :=
  match row with
  | [] => .null
  | (k, v) :: rest => if k = key then v else rowGet rest key

/-- Python `key in row`. -/
def rowHas (row : Row) (key : String) : Bool :=
  match row with
  | [] => false
  | (k, _) :: rest => k = key || rowHas rest key

/-- Python `row[key] = v` on a dict: overwrite in place if the key exists
(keeping its position), otherwise append the new key at the end. -/
def rowSet (row : Row) (key : String) (v : Value) : Row :=
  match row with
  | [] => [(key, v)]
  | (k, w) :: rest => if k = key then (k, v) :: rest else (k, w) :: rowSet rest key v

/-- Strip whitespace from both ends (Python `str.strip()` / `str.trim`),
on character lists so it evaluates inside the kernel. -/
def pyTrim (s : String) : String :=
  (((s.toList.dropWhile (·.isWhitespace)).reverse.dropWhile (·.isWhitespace)).reverse).asString

/-- Python `str.lower()` (ASCII, as all verified inputs are). -/
def pyLower (s : String) : String := (s.toList.map Char.toLower).asString

/-- Python `str.upper()` (ASCII, as all verified inputs are). -/
def pyUpper (s : String) : String := (s.toList.map Char.toUpper).asString

/-- The worker of Python `str.split()` with no separator: split on
whitespace runs, discarding empty pieces. -/
def splitWsGo : List Char → List Char → List String
  | [], cur => if cur.isEmpty then [] else [cur.asString]
  | c :: rest, cur =>
    if c.isWhitespace then
      (if cur.isEmpty then [] else [cur.asString]) ++ splitWsGo rest []
    else splitWsGo rest (cur ++ [c])

/-- Python `str.split()` with no separator. -/
def pySplitWs (s : String) : List String := splitWsGo s.toList []

/-- Drop an expected prefix from a character list, or fail. -/
def dropPrefixChars : List Char → List Char → Option (List Char)
  | cs, [] => some cs
  | [], _ :: _ => none
  | c :: cs, p :: ps => if c = p then dropPrefixChars cs ps else none

/-- Python `s.startswith(p)`. -/
def pyStartsWith (s p : String) : Bool := (dropPrefixChars s.toList p.toList).isSome

/-- Python `s.endswith(p)`. -/
def pyEndsWith (s p : String) : Bool :=
  (dropPrefixChars s.toList.reverse p.toList.reverse).isSome

/-- Numeric view of a value: Python treats `bool` as a number
(`True == 1`), ints and floats compare and mix by numeric value. -/
def toNum? : Value → Option PyFloat
  | .bool b => some (.ofInt (if b then 1 else 0))
  | .int n => some (.ofInt n)
  | .float q => some q
  | _ => none

/-- Whether a value is a Python float (decides the type of arithmetic results). -/
def isFloatV : Value → Bool
  | .float _ => true
  | _ => false

/-- Whether a value is int-like for arithmetic (int or bool). -/
def toInt? : Value → Option Int
  | .bool b => some (if b then 1 else 0)
  | .int n => some n
  | _ => none

/-- Python truthiness: `None`, `False`, `0`, `0.0`, `""`, `[]`, `{}` are
falsy, everything else truthy. -/
def pyTruthy : Value → Bool
  | .null => false
  | .bool b => b
  | .int n => n != 0
  | .float q => !q.isZero
  | .str s => s != ""
  | .list items => !items.isEmpty
  | .dict entries => !entries.isEmpty

mutual

/-- Python `==` on values: numbers (bool/int/float) compare by numeric
value, strings by content, lists elementwise.  Never raises.  Nested dicts
are compared entrywise in order; Python compares dicts as unordered maps,
but every dict this engine builds has a deterministic key order and no
verified property compares dicts at all. -/
def pyEqV : Value → Value → Bool
  | .null, .null => true
  | .str a, .str b => a == b
  | .list xs, .list ys => pyEqL xs ys
  | .dict xs, .dict ys => pyEqD xs ys
  | a, b =>
    match toNum? a, toNum? b with
    | some x, some y => x.beqNum y
    | _, _ => false

def pyEqL : List Value → List Value → Bool
  | [], [] => true
  | a :: as, b :: bs => pyEqV a b && pyEqL as bs
  | _, _ => false

def pyEqD : List (String × Value) → List (String × Value) → Bool
  | [], [] => true
  | (k, v) :: as, (k2, v2) :: bs => k == k2 && pyEqV v v2 && pyEqD as bs
  | _, _ => false

end

/-- Minimal model of Python `float(s)` on strings: optional sign, digits,
optional fractional part.  (Exponents, `inf`/`nan` and surrounding
whitespace are not modelled; no verified property feeds such strings in.) -/
def strToFloat? (s : String) : Option PyFloat :=
  let core (t : List Char) : Option PyFloat :=
    let intPart := t.takeWhile (·.isDigit)
    let rest := t.dropWhile (·.isDigit)
    let fracPart :=
      match rest with
      | '.' :: fr => if fr.all (·.isDigit) then some fr else none
      | [] => some []
      | _ => none
    match fracPart with
    | none => none
    | some fr =>
      if intPart = [] ∧ fr = [] then none
      else
        let digitsVal (ds : List Char) : Nat :=
          ds.foldl (fun acc c => acc * 10 + (c.toNat - '0'.toNat)) 0
        some (PyFloat.norm
          ((digitsVal intPart * 10 ^ fr.length + digitsVal fr : Nat) : Int)
          (10 ^ fr.length))
  match s.toList with
  | '-' :: t => (core t).map PyFloat.neg
  | '+' :: t => core t
  | t => core t

/-- Python `float(v)` as used by `AggregateStep._compute_agg`: ints, floats
and bools convert; numeric strings parse; anything else raises
(`ValueError`/`TypeError`, modelled as `none`). -/
def pyFloat? : Value → Option PyFloat
  | .bool b => some (.ofInt (if b then 1 else 0))
  | .int n => some (.ofInt n)
  | .float q => some q
  | .str s => strToFloat? s
  | _ => none

/-- The comparison operators of `SAFE_OPS` (`ast.Gt` … `ast.NotEq`). -/
inductive CmpOp where
  | lt | le | eq | ne | ge | gt
deriving Repr, DecidableEq

/-- Python `<` on values: numbers by numeric value, strings
lexicographically; any other pairing raises `TypeError` (modelled as
`none`; Python's elementwise list comparison is likewise modelled as an
error — no verified property compares lists). -/
def pyLt : Value → Value → Option Bool
  | .str a, .str b => some (a < b)
  | a, b =>
    match toNum? a, toNum? b with
    | some x, some y => some (x.lt y)
    | _, _ => none

/-- Application of one `SAFE_OPS` comparison operator. -/
def applyCmp : CmpOp → Value → Value → Option Bool
  | .lt, a, b => pyLt a b
  | .gt, a, b => pyLt b a
  | .le, a, b => (pyLt b a).map (!·)
  | .ge, a, b => (pyLt a b).map (!·)
  | .eq, a, b => some (pyEqV a b)
  | .ne, a, b => some (!pyEqV a b)

/-- The binary arithmetic operators of `SAFE_OPS`. -/
inductive BinOp where
  | add | sub | mul | div | mod | floordiv
deriving Repr, DecidableEq

/-- Helper for `+ - *`: ints (and bools) give ints, a float operand gives a
float. -/
def numArith (intOp : Int → Int → Int) (floatOp : PyFloat → PyFloat → PyFloat)
    (a b : Value) : Option Value :=
  match toInt? a, toInt? b with
  | some x, some y => some (.int (intOp x y))
  | _, _ =>
    match toNum? a, toNum? b with
    | some x, some y => some (.float (floatOp x y))
    | _, _ => none

/-- Application of one `SAFE_OPS` arithmetic operator, following Python:
`+` also concatenates strings and lists, `*` also repeats them; `/` always
yields a float; `%` and `//` use floor semantics; division by zero raises.
(Python's `%` string formatting is modelled as an error.) -/
def applyBin : BinOp → Value → Value → Option Value
  | .add, .str a, .str b => some (.str (a ++ b))
  | .add, .list a, .list b => some (.list (a ++ b))
  | .add, a, b => numArith (· + ·) PyFloat.add a b
  | .sub, a, b => numArith (· - ·) PyFloat.sub a b
  | .mul, .str a, b =>
    (toInt? b).map (fun n => .str (String.join (List.replicate n.toNat a)))
  | .mul, a, .str b =>
    (toInt? a).map (fun n => .str (String.join (List.replicate n.toNat b)))
  | .mul, .list a, b =>
    (toInt? b).map (fun n => .list (List.flatten (List.replicate n.toNat a)))
  | .mul, a, .list b =>
    (toInt? a).map (fun n => .list (List.flatten (List.replicate n.toNat b)))
  | .mul, a, b => numArith (· * ·) PyFloat.mul a b
  | .div, a, b => do
    let x ← toNum? a
    let y ← toNum? b
    if y.isZero then none else some (.float (x.div y))
  | .mod, a, b =>
    match toInt? a, toInt? b with
    | some x, some y => if y = 0 then none else some (.int (Int.fmod x y))
    | _, _ => do
      let x ← toNum? a
      let y ← toNum? b
      if y.isZero then none
      else some (.float (x.sub (y.mul (.ofInt (x.div y).floor))))
  | .floordiv, a, b =>
    match toInt? a, toInt? b with
    | some x, some y => if y = 0 then none else some (.int (Int.fdiv x y))
    | _, _ => do
      let x ← toNum? a
      let y ← toNum? b
      if y.isZero then none else some (.float (.ofInt (x.div y).floor))

example : applyBin .add (.int 1) (.bool true) = some (.int 2) := by rfl
example : applyBin .div (.int 7) (.int 2) = some (.float ⟨7, 2⟩) := by rfl
example : applyBin .mod (.int (-7)) (.int 3) = some (.int 2) := by rfl
example : pyEqV (.int 4) (.float 4) = true := by rfl
example : Value.float 4 ≠ Value.int 4 := by simp

/-!
The sandboxed expression evaluator of `blitz/utils/expr.py` and
`blitztigerclaw/utils/expr.py` (identical in all parts modelled here; the
latter file additionally tries a native C engine that is absent from the
source tree — spec section 4.1 calls that fast path "a performance hint,
not a correctness requirement" — so the Python AST evaluator is modelled).

Expressions are modelled post-parse: `ast.parse(expr_str, mode="eval")`
yields an expression AST; in `eval` mode no `Import`/`ImportFrom` node is
derivable, so the AST type below has no import constructor and
`_validate_ast`'s import check is vacuous.  Python's `ast` stores operand
lists; those lists are represented by the mutually defined `PEList` /
`CmpChain` so that structural recursion and induction stay available.
-/

mutual

/-- A Python expression AST node (`ast.Expression.body`), restricted to the
node kinds `_eval_node` understands; any other node raises at evaluation. -/
inductive PyExpr where
  | const (v : Value)
  | name (id : String)
  | compare (left : PyExpr) (rest : CmpChain)
  | boolAnd (values : PEList)
  | boolOr (values : PEList)
  | binop (op : BinOp) (left right : PyExpr)
  | unaryNot (operand : PyExpr)
  | unaryNeg (operand : PyExpr)
  | attr (obj : PyExpr) (attrName : String)
  | call (func : PyExpr) (args : PEList)
  | ifExp (test body orelse : PyExpr)

/-- The `(op, comparator)` tail of an `ast.Compare` chain. -/
inductive CmpChain where
  | nil
  | cons (op : CmpOp) (cmp : PyExpr) (rest : CmpChain)

/-- A list of expression nodes (`BoolOp.values`, `Call.args`). -/
inductive PEList where
  | nil
  | cons (hd : PyExpr) (tl : PEList)

end

/-- The `BLOCKED_NAMES` frozenset of `expr.py`. -/
def BLOCKED_NAMES : List String :=
  ["exec", "eval", "compile", "__import__", "open",
   "input", "globals", "locals", "vars", "dir",
   "getattr", "setattr", "delattr", "breakpoint"]

/-- The `SAFE_BUILTINS` frozenset of `expr.py`. -/
def SAFE_BUILTINS : List String :=
  ["len", "int", "float", "str", "bool", "abs",
   "min", "max", "sum", "round", "sorted", "list",
   "upper", "lower", "strip", "replace", "split",
   "startswith", "endswith", "title"]

mutual

/-- The compile-time check `_validate_ast` (via `ast.walk`): rejects a
`Call` whose `func` is a `Name` on the blocklist.  `true` means the walk
raises no `ExpressionError`.  Import nodes cannot occur in an `eval`-mode
AST, so that check has no case here. -/
def validateAst : PyExpr → Bool
  | .const _ => true
  | .name _ => true
  | .compare l rest => validateAst l && validateChain rest
  | .boolAnd vs => validateList vs
  | .boolOr vs => validateList vs
  | .binop _ l r => validateAst l && validateAst r
  | .unaryNot e => validateAst e
  | .unaryNeg e => validateAst e
  | .attr obj _ => validateAst obj
  | .call f args =>
    (match f with
     | .name id => !BLOCKED_NAMES.contains id
     | _ => true) && validateAst f && validateList args
  | .ifExp t b o => validateAst t && validateAst b && validateAst o

def validateChain : CmpChain → Bool
  | .nil => true
  | .cons _ c rest => validateAst c && validateChain rest

def validateList : PEList → Bool
  | .nil => true
  | .cons e tl => validateAst e && validateList tl

end

mutual

/-- All identifiers of `ast.Name` nodes occurring in an expression — the
fields the compiled evaluator can read from a row (`_eval_node` resolves
every `Name`, including one in call position, as `row.get(id)`). -/
def namesOfE : PyExpr → List String
  | .const _ => []
  | .name id => [id]
  | .compare l rest => namesOfE l ++ namesOfChain rest
  | .boolAnd vs => namesOfList vs
  | .boolOr vs => namesOfList vs
  | .binop _ l r => namesOfE l ++ namesOfE r
  | .unaryNot e => namesOfE e
  | .unaryNeg e => namesOfE e
  | .attr obj _ => namesOfE obj
  | .call f args => namesOfE f ++ namesOfList args
  | .ifExp t b o => namesOfE t ++ namesOfE b ++ namesOfE o

def namesOfChain : CmpChain → List String
  | .nil => []
  | .cons _ c rest => namesOfE c ++ namesOfChain rest

def namesOfList : PEList → List String
  | .nil => []
  | .cons e tl => namesOfE e ++ namesOfList tl

end

/-- A value as the evaluator sees it: either a data value or a bound string
method produced by `getattr(obj, attr)` (the only callables reachable in
the sandbox). -/
inductive RVal where
  | v (val : Value)
  | method (recv : String) (methodName : String)
deriving Repr

/-- Truthiness of an evaluator value (a bound method object is truthy). -/
def truthyR : RVal → Bool
  | .v val => pyTruthy val
  | .method _ _ => true

/-- Whether an evaluator value is Python `None` (the `is None` guard in the
`Compare` branch). -/
def isNullR : RVal → Bool
  | .v .null => true
  | _ => false

/-- String methods reachable through `getattr` on a `str` receiver; all
are members of `SAFE_BUILTINS`. -/
def strMethods : List String :=
  ["upper", "lower", "strip", "replace", "split",
   "startswith", "endswith", "title"]

/-- Python `str.title()`: uppercase each letter that follows a non-letter,
lowercase the rest. -/
def titleCase (s : String) : String :=
  (s.toList.foldl
    (fun (acc : List Char × Bool) c =>
      if c.isAlpha then (acc.1 ++ [if acc.2 then c.toLower else c.toUpper], true)
      else (acc.1 ++ [c], false))
    ([], false)).1.asString

/-- Application of a bound string method to evaluated arguments; a wrong
arity or argument type raises `TypeError` (`none`). -/
def applyStrMethod (s : String) (m : String) (args : List Value) : Option Value :=
  match m, args with
  | "upper", [] => some (.str (pyUpper s))
  | "lower", [] => some (.str (pyLower s))
  | "strip", [] => some (.str (pyTrim s))
  | "title", [] => some (.str (titleCase s))
  | "replace", [.str a, .str b] =>
    if a = "" then none else some (.str (s.replace a b))
  | "split", [] => some (.list ((pySplitWs s).map .str))
  | "split", [.str sep] =>
    if sep = "" then none else some (.list ((s.splitOn sep).map .str))
  | "startswith", [.str p] => some (.bool (pyStartsWith s p))
  | "endswith", [.str p] => some (.bool (pyEndsWith s p))
  | _, _ => none

/-- The `ast.Attribute` branch of `_eval_node` after the `obj is None` and
allow-list checks: `getattr(obj, attr)` succeeds only for a string
receiver and one of its methods, else `AttributeError` (`none`). -/
def getAttrR : RVal → String → Option RVal
  | .v (.str s), a => if strMethods.contains a then some (.method s a) else none
  | _, _ => none

/-- One `SAFE_OPS` comparison at evaluator level; bound methods support
only `==`/`!=` (comparing receiver and method, as Python compares bound
methods by self and function), ordering them raises. -/
def applyCmpR : CmpOp → RVal → RVal → Option Bool
  | op, .v a, .v b => applyCmp op a b
  | .eq, .method r1 n1, .method r2 n2 => some (r1 == r2 && n1 == n2)
  | .ne, .method r1 n1, .method r2 n2 => some (!(r1 == r2 && n1 == n2))
  | .eq, _, _ => some false
  | .ne, _, _ => some true
  | _, _, _ => none

/-- The `ast.UnaryOp`/`USub` branch: `-operand` (Python `-True == -1`). -/
def pyNegR : RVal → Option RVal
  | .v val =>
    match toInt? val with
    | some n => some (.v (.int (-n)))
    | none =>
      match val with
      | .float q => some (.v (.float q.neg))
      | _ => none
  | .method _ _ => none

mutual

/-- The tree-walking interpreter `_eval_node`.  `none` models a raised
exception (swallowed to `None` by the `evaluator` closure at top level).
Notable faithful details: a `Compare` chain never advances `left` (the
code keeps the original left operand); `and`/`or` return Python bools via
`all`/`any`, not the last operand; a `Call` whose function value is not
callable returns `None` without evaluating the arguments; `Name` is always
`row.get(id)` — so free functions like `len` resolve to a row field. -/
def evalNode : PyExpr → Row → Option RVal
  | .const v, _ => some (.v v)
  | .name id, row => some (.v (rowGet row id))
  | .compare l rest, row => do
    let lv ← evalNode l row
    evalChain lv rest row
  | .boolAnd vs, row => evalAll vs row
  | .boolOr vs, row => evalAny vs row
  | .binop op l r, row => do
    let a ← evalNode l row
    let b ← evalNode r row
    match a, b with
    | .v x, .v y => (applyBin op x y).map .v
    | _, _ => none
  | .unaryNot e, row => do
    let x ← evalNode e row
    some (.v (.bool (!truthyR x)))
  | .unaryNeg e, row => do
    let x ← evalNode e row
    pyNegR x
  | .attr obj a, row => do
    let o ← evalNode obj row
    if isNullR o then some (.v .null)
    else if SAFE_BUILTINS.contains a then getAttrR o a
    else none
  | .call f args, row => do
    let fv ← evalNode f row
    match fv with
    | .method recv m => do
      let as ← evalArgs args row
      (applyStrMethod recv m as).map .v
    | .v _ => some (.v .null)
  | .ifExp t b o, row => do
    let tv ← evalNode t row
    if truthyR tv then evalNode b row else evalNode o row

/-- The comparison loop of the `Compare` branch (with the fixed `left`). -/
def evalChain (lv : RVal) : CmpChain → Row → Option RVal
  | .nil, _ => some (.v (.bool true))
  | .cons op c rest, row => do
    let rv ← evalNode c row
    if isNullR lv || isNullR rv then some (.v (.bool false))
    else
      match applyCmpR op lv rv with
      | none => none
      | some res =>
        if !res then some (.v (.bool false)) else evalChain lv rest row

/-- Python `all(...)` over evaluated operands (short-circuit). -/
def evalAll : PEList → Row → Option RVal
  | .nil, _ => some (.v (.bool true))
  | .cons e tl, row => do
    let x ← evalNode e row
    if !truthyR x then some (.v (.bool false)) else evalAll tl row

/-- Python `any(...)` over evaluated operands (short-circuit). -/
def evalAny : PEList → Row → Option RVal
  | .nil, _ => some (.v (.bool false))
  | .cons e tl, row => do
    let x ← evalNode e row
    if truthyR x then some (.v (.bool true)) else evalAny tl row

/-- Left-to-right evaluation of call arguments. -/
def evalArgs : PEList → Row → Option (List Value)
  | .nil, _ => some []
  | .cons e tl, row => do
    let x ← evalNode e row
    match x with
    | .v val => do
      let rest ← evalArgs tl row
      some (val :: rest)
    | .method _ _ => none

end

/-- The `evaluator` closure built by `compile_expr`: run `_eval_node` and
swallow any exception to `None`. -/
def evalTopR (e : PyExpr) (row : Row) : RVal :=
  (evalNode e row).getD (.v .null)

/-- The value a `compute` target stores.  A bound method stored as data is
modelled as null (no verified property stores methods). -/
def valueOfR : RVal → Value
  | .v val => val
  | .method _ _ => .null

/-- Evaluate an expression to a stored data value (compute semantics). -/
def pyEvalV (e : PyExpr) (row : Row) : Value :=
  valueOfR (evalTopR e row)

/-- Filter semantics: Python truthiness of the evaluator result. -/
def pyFilterKeep (e : PyExpr) (row : Row) : Bool :=
  truthyR (evalTopR e row)

example :
    pyFilterKeep (.compare (.name "price") (.cons .gt (.const (.int 10)) .nil))
      [("price", .int 20)] = true := by rfl
example :
    pyFilterKeep (.compare (.name "price") (.cons .gt (.const (.int 10)) .nil))
      [("price", .int 5)] = false := by rfl
example :
    pyEvalV (.binop .mul (.name "price") (.name "qty"))
      [("price", .int 20), ("qty", .int 3)] = .int 60 := by rfl

/-!
Step configurations.  A step's `config` is a Python dict; each step reads a
fixed set of keys from it.  `StepConfig` enumerates exactly the keys the
modelled steps (`transform`, `clean`, `aggregate`, `join`) read, with
`none`/`[]` standing for an absent key.  Planner-internal keys (`_fused_ops`,
`_needed_fields`) live one level up in `NodeConfig`, since the fusion pass
strips them out of the per-op configs it collects (`Planner._clean_config`)
and the executor strips them before instantiating a step.
-/

/-- A YAML config value that is either one string or a list of strings
(`dedupe`, `group_by` accept both). -/
inductive StrOrList where
  | one (s : String)
  | many (ss : List String)
deriving Repr

/-- Normalization both steps apply: a bare string becomes a one-element
list (`if isinstance(x, str): x = [x]`). -/
def StrOrList.toList : StrOrList → List String
  | .one s => [s]
  | .many ss => ss

/-- Decimal rendering of a fraction that is exactly representable with at
most 17 fractional digits — covers Python `repr` of every float produced
by the engine on the verified inputs.  Other fractions fall back to a
fraction rendering (never reached in a verified property). -/
def floatRepr (q : PyFloat) : String :=
  if q.den = 1 then toString q.num ++ ".0"
  else
    match (List.range 18).find? (fun k => q.num.natAbs * 10 ^ k % q.den = 0) with
    | some k =>
      let n := q.num.natAbs * 10 ^ k / q.den
      let digits := toString n
      let digits := String.mk (List.replicate (k + 1 - digits.length) '0') ++ digits
      let point := digits.length - k
      (if q.num < 0 then "-" else "") ++
        (digits.toList.take point).asString ++ "." ++ (digits.toList.drop point).asString
    | none => toString q.num ++ "/" ++ toString q.den

mutual

/-- Python `str(v)` (used by the `clean` step's `str` coercion). -/
def pyStr : Value → String
  | .str s => s
  | v => pyRepr v

/-- Python `repr(v)` for the engine's value universe. -/
def pyRepr : Value → String
  | .null => "None"
  | .bool b => if b then "True" else "False"
  | .int n => toString n
  | .float q => floatRepr q
  | .str s => String.singleton '\'' ++ s ++ String.singleton '\''
  | .list items => "[" ++ pyReprL items ++ "]"
  | .dict entries => pyReprD entries

def pyReprL : List Value → String
  | [] => ""
  | [v] => pyRepr v
  | v :: rest => pyRepr v ++ ", " ++ pyReprL rest

def pyReprD : List (String × Value) → String
  | entries => "dict(" ++ pyReprDGo entries ++ ")"

def pyReprDGo : List (String × Value) → String
  | [] => ""
  | [(k, v)] => k ++ ": " ++ pyRepr v
  | (k, v) :: rest => k ++ ": " ++ pyRepr v ++ ", " ++ pyReprDGo rest

end

/-- Python `int(s)` on a string: strip whitespace, optional sign, decimal
digits (digit-group underscores are not modelled). -/
def pyIntOfStr? (s : String) : Option Int :=
  let t := (pyTrim s).toList
  let core (ds : List Char) (sign : Int) : Option Int :=
    if ds ≠ [] ∧ ds.all (·.isDigit) then
      some (sign * ((ds.foldl (fun (acc : Nat) c => acc * 10 + (c.toNat - '0'.toNat)) 0 : Nat) : Int))
    else none
  match t with
  | '-' :: ds => core ds (-1)
  | '+' :: ds => core ds 1
  | ds => core ds 1

/-- The `_TRUTHY` string set of `clean.py`. -/
def TRUTHY_STRINGS : List String := ["true", "1", "yes", "on", "t", "y"]

/-- The `_FALSY` string set of `clean.py`. -/
def FALSY_STRINGS : List String := ["false", "0", "no", "off", "f", "n"]

/-- The `_coerce_bool` helper of `clean.py`: bools pass through; other
values render with `str(...)`, and the trimmed lowercase form is looked up
in the truthy/falsy string sets before falling back to Python truthiness. -/
def coerceBool (v : Value) : Value :=
  match v with
  | .bool _ => v
  | _ =>
    let s := pyLower (pyTrim (pyStr v))
    if TRUTHY_STRINGS.contains s then .bool true
    else if FALSY_STRINGS.contains s then .bool false
    else .bool (pyTruthy v)

/-- One `_COERCE_MAP` conversion attempt: `none` models the
`ValueError`/`TypeError` that `_clean_row` catches (keeping the original
value); an unknown target type is skipped by the caller. -/
def coerceValue (target : String) (v : Value) : Option Value :=
  match target with
  | "int" =>
    match v with
    | .bool b => some (.int (if b then 1 else 0))
    | .int n => some (.int n)
    | .float q => some (.int q.trunc)
    | .str s => (pyIntOfStr? s).map .int
    | _ => none
  | "float" => (pyFloat? v).map .float
  | "bool" => some (coerceBool v)
  | "str" => some (.str (pyStr v))
  | _ => none

/-- Per-step configuration keys (see the section comment above). -/
structure StepConfig where
  flatten : Option String := none
  select : Option (List String) := none
  rename : Option (List (String × String)) := none
  filter : Option PyExpr := none
  compute : Option (List (String × PyExpr)) := none
  sort : Option String := none
  dedupe : Option StrOrList := none
  limit : Option Int := none
  coerce : List (String × String) := []
  defaults : List (String × Value) := []
  trim : List String := []
  lowercase : List String := []
  uppercase : List String := []
  replace : List (String × List (String × String)) := []
  dropNulls : List String := []
  dropEmpty : List String := []
  groupBy : Option StrOrList := none
  functions : List (String × String) := []
  having : Option PyExpr := none
  right : Option String := none
  joinOn : Option String := none
  leftOn : Option String := none
  rightOn : Option String := none
  how : Option String := none
  selectRight : Option (List String) := none
  prefixRight : Option String := none

/-- Whether a value is Python `None`. -/
def isNullV : Value → Bool
  | .null => true
  | _ => false

/-!
Simplified JSONPath (`blitztigerclaw/utils/jsonpath.py`, identical in
`blitz/utils/jsonpath.py`) — used by the `transform` step's `flatten` key.
-/

/-- The character loop of `_split_path`: split on `.`, emit `[...]` groups
verbatim; a `[` with no closing `]` raises (`str.index`). -/
def splitPathGo : List Char → List Char → List String → Except String (List String)
  | [], cur, acc => .ok (acc ++ (if cur.isEmpty then [] else [cur.asString]))
  | '.' :: rest, cur, acc =>
    splitPathGo rest [] (acc ++ (if cur.isEmpty then [] else [cur.asString]))
  | '[' :: rest, cur, acc =>
    let acc2 := acc ++ (if cur.isEmpty then [] else [cur.asString])
    let inside := rest.takeWhile (· ≠ ']')
    if inside.length = rest.length then .error "ValueError: substring not found"
    else splitPathGo (rest.drop (inside.length + 1)) [] (acc2 ++ ["[" ++ inside.asString ++ "]"])
  | c :: rest, cur, acc => splitPathGo rest (cur ++ [c]) acc
termination_by l _ _ => l.length
decreasing_by all_goals (simp_wf <;> omega)

/-- The nested-list flattening comprehension inside `jsonpath_extract`
(`[x for sublist in current if sublist for x in sublist]`): falsy entries
are skipped, iterable entries are spliced (a string iterates its
characters, a dict its keys), anything else raises `TypeError`. -/
def flattenSubs : List Value → Except String (List Value)
  | [] => .ok []
  | v :: rest =>
    if !pyTruthy v then flattenSubs rest
    else
      match v with
      | .list xs => do
        let r ← flattenSubs rest
        .ok (xs ++ r)
      | .str s => do
        let r ← flattenSubs rest
        .ok ((s.toList.map (fun c => Value.str (String.singleton c))) ++ r)
      | .dict entries => do
        let r ← flattenSubs rest
        .ok ((entries.map (fun kv => Value.str kv.1)) ++ r)
      | _ => .error "TypeError: not iterable"

/-- The part-by-part loop of `jsonpath_extract`. -/
def jsonpathLoop : Value → List String → Except String Value
  | current, [] => .ok current
  | current, part :: rest =>
    if isNullV current then .ok .null
    else if part = "*" ∨ part = "[*]" then
      match current with
      | .list _ => jsonpathLoop current rest
      | _ => .ok .null
    else
      match current with
      | .list items =>
        let projected : List Value := items.map (fun it =>
          match it with
          | .dict entries => rowGet entries part
          | _ => Value.null)
        (match projected with
         | .list _ :: _ => do
           let flat ← flattenSubs projected
           jsonpathLoop (.list flat) rest
         | _ => jsonpathLoop (.list projected) rest)
      | .dict entries => jsonpathLoop (rowGet entries part) rest
      | _ => .ok .null

/-- `jsonpath_extract(data, path)`. -/
def jsonpathExtract (v : Value) (path : String) : Except String Value :=
  match path.toList with
  | '$' :: afterDollar =>
    let remainder := match afterDollar with
      | '.' :: r => r
      | r => r
    if remainder.isEmpty then .ok v
    else do
      let parts ← splitPathGo remainder [] []
      jsonpathLoop v parts
  | _ => .error "JSONPath must start with dollar"

/-- How `TransformStep` turns one extraction result into rows (the shared
shape of `_flatten` and the streaming path): a list contributes one row per
item (non-dict items wrapped as `value`), a dict one row, `None` nothing,
any other scalar a single wrapped row. -/
def flattenRowOut : Value → List Row
  | .list items =>
    items.map (fun it =>
      match it with
      | .dict e => e
      | _ => [("value", it)])
  | .dict e => [e]
  | .null => []
  | v => [[("value", v)]]

/-- `TransformStep._flatten`: extract per input row and concatenate. -/
def flattenData (data : Dataset) (path : String) : Except String Dataset :=
  data.foldlM (fun acc row => do
    let ex ← jsonpathExtract (.dict row) path
    .ok (acc ++ flattenRowOut ex)) []

/-!
Stable sorting.  Python `list.sort(key=..., reverse=...)` is a stable sort;
it is modelled by stable insertion sort.  Both `TransformStep.execute` and
`AggregateStep.execute` sort with key `(r.get(f) is None, r.get(f, 0))` —
null-keyed rows ordered behind present keys, then Python `<` on the
values.  A `TypeError` on incomparable key values (which would abort the
Python sort) is modelled as key equality; no verified property sorts
incomparable values.
-/

/-- Stable insertion of `x` before the first element `y` with `le x y`. -/
def insertStable (le : α → α → Bool) (x : α) : List α → List α
  | [] => [x]
  | y :: ys => if le x y then x :: y :: ys else y :: insertStable le x ys

/-- Stable sort: elements comparing equal keep their input order. -/
def stableSort (le : α → α → Bool) (l : List α) : List α :=
  l.foldr (insertStable le) []

/-- The sort key `(r.get(f) is None, r.get(f, 0))`. -/
def sortKeyOf (field : String) (r : Row) : Bool × Value :=
  (isNullV (rowGet r field), if rowHas r field then rowGet r field else .int 0)

/-- Strict `<` on sort keys (bools order `False < True`). -/
def sortKeyLt (a b : Bool × Value) : Bool :=
  (!a.1 && b.1) || (a.1 == b.1 && (pyLt a.2 b.2).getD false)

/-- The shared sort block of `TransformStep.execute` (step 6) and
`AggregateStep.execute`: split the spec on whitespace, sort by the first
token's field, descending iff the second token is `desc`; an empty spec
raises (`parts[0]`). -/
def sortRows (spec : String) (data : Dataset) : Except String Dataset :=
  let parts := pySplitWs spec
  match parts with
  | [] => .error "IndexError: list index out of range"
  | f :: restParts =>
    let descending := restParts.length ≥ 1 && pyLower (restParts.headD "") == "desc"
    let le : Row → Row → Bool := fun r1 r2 =>
      if descending then !sortKeyLt (sortKeyOf f r1) (sortKeyOf f r2)
      else !sortKeyLt (sortKeyOf f r2) (sortKeyOf f r1)
    .ok (stableSort le data)

/-- The dedupe loop of `TransformStep.execute` (step 7): first row per key
tuple wins; the seen-set uses Python hash equality (`pyEqL`). -/
def dedupeGo (keys : List String) : Dataset → List (List Value) → Dataset
  | [], _ => []
  | r :: rest, seen =>
    let k := keys.map (rowGet r)
    if seen.any (pyEqL k) then dedupeGo keys rest seen
    else r :: dedupeGo keys rest (k :: seen)

/-- Python list slicing `xs[:n]` (a negative bound counts from the end). -/
def pySliceTo (n : Int) (xs : List α) : List α :=
  if 0 ≤ n then xs.take n.toNat else xs.take (xs.length - (-n).toNat)

/-- The select comprehension `{k: row.get(k) for k in fields}`.  Duplicate
names in `fields` would collapse in the Python dict; field lists are
treated as duplicate-free. -/
def selectRow (fields : List String) (row : Row) : Row :=
  fields.map (fun k => (k, rowGet row k))

/-- The rename comprehension `{mapping.get(k, k): v for k, v in
row.items()}` (shared by transform step 3 and `_clean_row` step 7).  Two
fields renamed to one target would collapse in the Python dict; rename
maps are treated as injective on the row. -/
def renameRow (m : List (String × String)) (row : Row) : Row :=
  row.map (fun kv => ((m.lookup kv.1).getD kv.1, kv.2))

/-- The error `compile_expr` raises for a forbidden expression. -/
def EXPR_ERR : String := "ExpressionError"

/-- `TransformStep.execute` (`blitz/steps/transform.py`): flatten, select,
rename, filter, compute, sort, dedupe, limit, in that fixed order.  The
filter and each compute expression are compiled (validated) at the point
the Python code calls `compile_expr`. -/
def transformExec (cfg : StepConfig) (data0 : Dataset) : Except String Dataset := do
  let data := data0
  let data ← match cfg.flatten with
    | some path => flattenData data path
    | none => pure data
  let data := match cfg.select with
    | some fields => data.map (selectRow fields)
    | none => data
  let data := match cfg.rename with
    | some m => data.map (renameRow m)
    | none => data
  let data ← match cfg.filter with
    | some e =>
      if validateAst e then pure (data.filter (pyFilterKeep e)) else Except.error EXPR_ERR
    | none => pure data
  let data ← match cfg.compute with
    | some computes =>
      computes.foldlM (fun d (fe : String × PyExpr) =>
        if validateAst fe.2 then Except.ok (d.map (fun r => rowSet r fe.1 (pyEvalV fe.2 r)))
        else Except.error EXPR_ERR) data
    | none => pure data
  let data ← match cfg.sort with
    | some spec => sortRows spec data
    | none => pure data
  let data := match cfg.dedupe with
    | some ks => dedupeGo ks.toList data []
    | none => data
  let data := match cfg.limit with
    | some n => pySliceTo n data
    | none => data
  return data

/-- Python `s.replace(old, new)`; with an empty `old`, Python inserts `new`
before every character and at the end. -/
def pyReplace (s old new : String) : String :=
  if old = "" then new ++ String.join (s.toList.map (fun c => String.singleton c ++ new))
  else s.replace old new

/-- `CleanStep._clean_row`: coerce, defaults, trim, lowercase, uppercase,
replace, rename, in that fixed order, on a copy of the row. -/
def cleanRow (cfg : StepConfig) (row0 : Row) : Row :=
  let row := row0
  let row := cfg.coerce.foldl (fun r (ft : String × String) =>
    if rowHas r ft.1 && !isNullV (rowGet r ft.1) then
      match coerceValue ft.2 (rowGet r ft.1) with
      | some v => rowSet r ft.1 v
      | none => r
    else r) row
  let row := cfg.defaults.foldl (fun r (fd : String × Value) =>
    if isNullV (rowGet r fd.1) then rowSet r fd.1 fd.2 else r) row
  let row := cfg.trim.foldl (fun r f =>
    match rowGet r f with
    | .str s => if rowHas r f then rowSet r f (.str (pyTrim s)) else r
    | _ => r) row
  let row := cfg.lowercase.foldl (fun r f =>
    match rowGet r f with
    | .str s => if rowHas r f then rowSet r f (.str (pyLower s)) else r
    | _ => r) row
  let row := cfg.uppercase.foldl (fun r f =>
    match rowGet r f with
    | .str s => if rowHas r f then rowSet r f (.str (pyUpper s)) else r
    | _ => r) row
  let row := cfg.replace.foldl (fun r (fr : String × List (String × String)) =>
    match rowGet r fr.1 with
    | .str s =>
      if rowHas r fr.1 then
        rowSet r fr.1 (.str (fr.2.foldl (fun acc onv => pyReplace acc onv.1 onv.2) s))
      else r
    | _ => r) row
  let row := match cfg.rename with
    | some m => if m.isEmpty then row else renameRow m row
    | none => row
  row

/-- `CleanStep._should_drop`. -/
def shouldDrop (cfg : StepConfig) (row : Row) : Bool :=
  cfg.dropNulls.any (fun f => isNullV (rowGet row f)) ||
  cfg.dropEmpty.any (fun f => pyEqV (rowGet row f) (.str ""))

/-- `CleanStep.execute`: clean each row, dropping per `_should_drop`; an
empty input returns `[]` early (same value).  Never raises. -/
def cleanExec (cfg : StepConfig) (data : Dataset) : Dataset :=
  data.foldr (fun row acc =>
    let row := cleanRow cfg row
    if shouldDrop cfg row then acc else row :: acc) []

/-!
The `aggregate` step (`blitztigerclaw/steps/aggregate.py`).
-/

/-- The `_AGG_RE` pattern `^(sum|avg|min|max|count|count_distinct)\((\w+)\)$`
applied to the stripped function string. -/
def parseAggFn (s : String) : Option (String × String) :=
  let cs := (pyTrim s).toList
  let try1 := fun (fn : String) =>
    match dropPrefixChars cs (fn.toList ++ ['(']) with
    | none => none
    | some remainder =>
      match remainder.reverse with
      | ')' :: midRev =>
        let middle := midRev.reverse
        if !middle.isEmpty && middle.all (fun c => c.isAlphanum || c = '_') then
          some (fn, middle.asString)
        else none
      | _ => none
  ["count_distinct", "sum", "avg", "min", "max", "count"].firstM try1

/-- Group insertion preserving first-seen key order
(`defaultdict(list)` keyed by the group tuple, Python hash equality). -/
def groupInsert (key : List Value) (r : Row) :
    List (List Value × List Row) → List (List Value × List Row)
  | [] => [(key, [r])]
  | (k, rs) :: rest =>
    if pyEqL k key then (k, rs ++ [r]) :: rest
    else (k, rs) :: groupInsert key r rest

/-- The single-pass grouping loop of `AggregateStep.execute`. -/
def buildGroups (gb : List String) (data : Dataset) : List (List Value × List Row) :=
  data.foldl (fun acc r => groupInsert (gb.map (rowGet r)) r acc) []

/-- The distinct-value count (Python `len({...})`, hash equality). -/
def countDistinct (vs : List Value) : Nat :=
  (vs.foldl (fun seen v => if seen.any (pyEqV v) then seen else seen ++ [v]) []).length

/-- `AggregateStep._compute_agg`: `count`/`count_distinct` over non-null
values; numeric aggregates collect `float(v)` of the non-null values
(coercion failures skipped), give null on an empty collection, and return
Python floats. -/
def computeAgg (fn : String) (field : String) (rows : List Row) : Value :=
  if fn = "count" then
    .int ((rows.filter (fun r => !isNullV (rowGet r field))).length : Int)
  else if fn = "count_distinct" then
    .int (countDistinct ((rows.map (fun r => rowGet r field)).filter (fun v => !isNullV v)) : Int)
  else
    let values := (rows.map (fun r => rowGet r field)).filterMap (fun v =>
      if isNullV v then none else pyFloat? v)
    match values with
    | [] => .null
    | v0 :: restVals =>
      if fn = "sum" then .float (values.foldl PyFloat.add 0)
      else if fn = "avg" then
        .float ((values.foldl PyFloat.add 0).div (.ofInt (values.length : Int)))
      else if fn = "min" then .float (restVals.foldl PyFloat.min2 v0)
      else if fn = "max" then .float (restVals.foldl PyFloat.max2 v0)
      else .null

/-- `AggregateStep.execute`: empty data short-circuits; no functions
returns the data; invalid function strings raise `ValueError`; group, fold
each aggregate into an output row (group fields first), filter by
`having`, then sort with the shared sort block. -/
def aggregateExec (cfg : StepConfig) (data : Dataset) : Except String Dataset := do
  if data.isEmpty then return []
  let groupBy := (cfg.groupBy.map StrOrList.toList).getD []
  if cfg.functions.isEmpty then return data
  let parsedFuncs ← cfg.functions.foldlM (fun (acc : List (String × String × String)) af =>
    match parseAggFn af.2 with
    | some (fn, field) => Except.ok (acc ++ [(af.1, fn, field)])
    | none => Except.error "ValueError: invalid aggregation") []
  let groups := buildGroups groupBy data
  let result := groups.map (fun g =>
    let withGroupFields := (groupBy.zip g.1).foldl (fun (r : Row) kf => rowSet r kf.1 kf.2) []
    parsedFuncs.foldl (fun r aff => rowSet r aff.1 (computeAgg aff.2.1 aff.2.2 g.2)) withGroupFields)
  let result ← match cfg.having with
    | some e =>
      if validateAst e then pure (result.filter (pyFilterKeep e)) else Except.error EXPR_ERR
    | none => pure result
  let result ← match cfg.sort with
    | some spec => sortRows spec result
    | none => pure result
  return result

/-!
The `join` step (`blitztigerclaw/steps/join.py`).  The right side comes
either from a DAG predecessor (`context.inputs`, any non-default port) or
from a `right:` source URI; the file/SQLite loaders are external I/O and
are modelled as a distinctive error (no verified property reaches them —
the one verified join property short-circuits on an empty left input
before `_load_right` is called).
-/

/-- Python `a or b` over optional string config values: an absent or empty
string falls through. -/
def pyOrStr : Option String → Option String → Option String
  | some s, b => if s = "" then b else some s
  | none, b => b

/-- `JoinStep._load_right`. -/
def loadRight (cfg : StepConfig) (contextData : Dataset)
    (inputs : List (String × Dataset)) : Except String Dataset :=
  match inputs.find? (fun pd => pd.1 ≠ "default") with
  | some pd => .ok pd.2
  | none =>
    let source := cfg.right.getD ""
    if source.startsWith "sqlite:" ∨ source.startsWith "csv:" ∨ source.startsWith "json:" then
      .error "external right-side source not modelled"
    else if source.startsWith "context:" then .ok contextData
    else .error "ValueError: unknown right-side source"

/-- `JoinStep._merge_row`: copy the left row, add the right fields except
the join key, prefixed when a prefix is configured. -/
def mergeRow (left : Row) (right : Option Row) (rightKey : String)
    (prefixStr : String) : Row :=
  match right with
  | none => left
  | some r =>
    r.foldl (fun out kv =>
      if kv.1 = rightKey then out
      else rowSet out (prefixStr ++ kv.1) kv.2) left

/-- The `right_index` hash index: key value → rows, skipping null keys,
preserving per-key insertion order. -/
def buildRightIndex (rightKey : String) (rightData : Dataset) :
    List (Value × List Row) :=
  rightData.foldl (fun idx row =>
    let k := rowGet row rightKey
    if isNullV k then idx
    else
      let rec ins : List (Value × List Row) → List (Value × List Row)
        | [] => [(k, [row])]
        | (k2, rs) :: rest =>
          if pyEqV k2 k then (k2, rs ++ [row]) :: rest else (k2, rs) :: ins rest
      ins idx) []

/-- Hash lookup `right_index[k]` (`none` models `k not in right_index`). -/
def indexLookup (idx : List (Value × List Row)) (k : Value) : Option (List Row) :=
  (idx.find? (fun e => pyEqV e.1 k)).map (·.2)

/-- `JoinStep._inner_join`. -/
def innerJoin (left : Dataset) (idx : List (Value × List Row))
    (leftKey rightKey prefixStr : String) : Dataset :=
  left.foldl (fun res row =>
    match indexLookup idx (rowGet row leftKey) with
    | some rs => res ++ rs.map (fun r => mergeRow row (some r) rightKey prefixStr)
    | none => res) []

/-- `JoinStep._left_join`. -/
def leftJoin (left : Dataset) (idx : List (Value × List Row))
    (leftKey rightKey prefixStr : String) : Dataset :=
  left.foldl (fun res row =>
    match indexLookup idx (rowGet row leftKey) with
    | some rs => res ++ rs.map (fun r => mergeRow row (some r) rightKey prefixStr)
    | none => res ++ [mergeRow row none rightKey prefixStr]) []

/-- The unmatched-right-row shape of `_outer_join`: left fields null-filled
from the first left row, the right key stored under the left key name. -/
def outerRightRow (firstLeft : Option Row) (rightRow : Row)
    (leftKey rightKey prefixStr : String) : Row :=
  let out : Row := match firstLeft with
    | some l0 => l0.foldl (fun acc kv => rowSet acc kv.1 .null) []
    | none => []
  rightRow.foldl (fun acc kv =>
    if kv.1 = rightKey then rowSet acc leftKey kv.2
    else rowSet acc (prefixStr ++ kv.1) kv.2) out

/-- `JoinStep._outer_join`: left side with matches (collecting matched
keys), then every right row whose key was never matched. -/
def outerJoin (left : Dataset) (idx : List (Value × List Row))
    (rightData : Dataset) (leftKey rightKey prefixStr : String) : Dataset :=
  let step := left.foldl (fun (acc : Dataset × List Value) row =>
    let k := rowGet row leftKey
    match indexLookup idx k with
    | some rs =>
      (acc.1 ++ rs.map (fun r => mergeRow row (some r) rightKey prefixStr),
       if acc.2.any (pyEqV k) then acc.2 else acc.2 ++ [k])
    | none => (acc.1 ++ [mergeRow row none rightKey prefixStr], acc.2)) ([], [])
  let matchedKeys := step.2
  rightData.foldl (fun res rightRow =>
    let k := rowGet rightRow rightKey
    if matchedKeys.any (pyEqV k) then res
    else res ++ [outerRightRow left.head? rightRow leftKey rightKey prefixStr]) step.1

/-- `JoinStep.execute`: an empty left input returns `[]` before anything
else (in particular before the right side is even loaded); then key
resolution, right-side load, optional right projection, hash index, and
dispatch on `how` (default `inner`, unknown modes raise). -/
def joinExec (cfg : StepConfig) (leftData : Dataset)
    (inputs : List (String × Dataset)) : Except String Dataset := do
  if leftData.isEmpty then return []
  let how := cfg.how.getD "inner"
  let leftKey? := pyOrStr cfg.leftOn cfg.joinOn
  let rightKey? := pyOrStr cfg.rightOn cfg.joinOn
  match leftKey?, rightKey? with
  | some leftKey, some rightKey =>
    if leftKey = "" ∨ rightKey = "" then
      Except.error "ValueError: join requires keys"
    else do
      let rightData ← loadRight cfg leftData inputs
      let rightData := match cfg.selectRight with
        | some sel =>
          if sel.isEmpty then rightData
          else
            let keep := if sel.contains rightKey then sel else sel ++ [rightKey]
            rightData.map (selectRow keep)
        | none => rightData
      let idx := buildRightIndex rightKey rightData
      let prefixStr := cfg.prefixRight.getD ""
      if how = "inner" then return innerJoin leftData idx leftKey rightKey prefixStr
      else if how = "left" then return leftJoin leftData idx leftKey rightKey prefixStr
      else if how = "outer" then
        return outerJoin leftData idx rightData leftKey rightKey prefixStr
      else Except.error "ValueError: unknown join type"
  | _, _ => Except.error "ValueError: join requires keys"

/-!
The DAG model (`blitztigerclaw/dag.py`), the planner's step metadata and
fusion pass (`blitztigerclaw/steps/__init__.py`, `blitztigerclaw/planner.py`),
the DAG executor (`blitztigerclaw/executor.py`) and the sequential driver
path (`blitztigerclaw/pipeline.py`).
-/

/-- A node config: the step-level keys plus the planner-internal
`_fused_ops` and `_needed_fields` annotations (the keys starting with `_`
that `Planner._clean_config` and `DagExecutor._execute_step` strip).  The
fusion pass only ever stores already-cleaned base-step configs inside
`_fused_ops`, which keeps this type non-recursive. -/
structure NodeConfig where
  step : StepConfig := {}
  fusedOps : List (String × StepConfig) := []
  neededFields : Option (List String) := none

/-- `DagNode` of `dag.py`. -/
structure DagNode where
  id : String
  stepType : String
  config : NodeConfig := {}
  strategy : String := "sync"
  estimatedRows : Option Int := none
  parallelLevel : Nat := 0

/-- `DagEdge` of `dag.py`. -/
structure DagEdge where
  source : String
  target : String
  port : String := "default"
deriving Repr, DecidableEq

/-- `ExecutionDAG`: an insertion-ordered id→node dict and an edge list. -/
structure ExecutionDAG where
  nodes : List (String × DagNode)
  edges : List DagEdge

/-- The node ids in dict order. -/
def ExecutionDAG.nodeIds (dag : ExecutionDAG) : List String :=
  dag.nodes.map (·.1)

/-- `ExecutionDAG.predecessors`. -/
def ExecutionDAG.predecessors (dag : ExecutionDAG) (nodeId : String) : List String :=
  (dag.edges.filter (fun e => e.target = nodeId)).map (·.source)

/-- `ExecutionDAG.successors`. -/
def ExecutionDAG.successors (dag : ExecutionDAG) (nodeId : String) : List String :=
  (dag.edges.filter (fun e => e.source = nodeId)).map (·.target)

/-- `ExecutionDAG.in_edges`. -/
def ExecutionDAG.inEdges (dag : ExecutionDAG) (nodeId : String) : List DagEdge :=
  dag.edges.filter (fun e => e.target = nodeId)

/-- `ExecutionDAG.leaves` (no outgoing edges, dict order). -/
def ExecutionDAG.leaves (dag : ExecutionDAG) : List String :=
  (dag.nodeIds).filter (fun nid => dag.edges.all (fun e => e.source ≠ nid))

/-- `ExecutionDAG.roots` (no incoming edges, dict order). -/
def ExecutionDAG.roots (dag : ExecutionDAG) : List String :=
  (dag.nodeIds).filter (fun nid => dag.edges.all (fun e => e.target ≠ nid))

/-- Every edge endpoint names an existing node (the invariant under which
`topological_sort`'s `in_degree` dict arithmetic cannot `KeyError`). -/
def ExecutionDAG.validEdges (dag : ExecutionDAG) : Prop :=
  ∀ e ∈ dag.edges, e.source ∈ dag.nodeIds ∧ e.target ∈ dag.nodeIds

instance (dag : ExecutionDAG) : Decidable dag.validEdges := by
  unfold ExecutionDAG.validEdges; infer_instance

/-- The initial `in_degree` table of Kahn's algorithm. -/
def degInit (dag : ExecutionDAG) : String → Int :=
  fun id => ((dag.edges.filter (fun e => e.target = id)).length : Int)

/-- The inner loop of `topological_sort`: decrement each successor's
degree, enqueueing those that reach zero. -/
def processSuccs : (String → Int) → List String → List String →
    ((String → Int) × List String)
  | deg, queue, [] => (deg, queue)
  | deg, queue, s :: rest =>
    let d := deg s - 1
    processSuccs (fun x => if x = s then d else deg x)
      (if d = 0 then queue ++ [s] else queue) rest

/-- The `while queue:` loop of `topological_sort`, fuelled.  Each iteration
dequeues one node; a node is enqueued at most once (its degree reaches
zero at most once), so `|nodes|` fuel reproduces the Python loop whenever
the sort succeeds. -/
def kahnLoop (dag : ExecutionDAG) :
    Nat → List String → (String → Int) → List String → List String
  | 0, _, _, order => order
  | _ + 1, [], _, order => order
  | fuel + 1, nid :: queue, deg, order =>
    let ds := processSuccs deg queue (dag.successors nid)
    kahnLoop dag fuel ds.2 ds.1 (order ++ [nid])

/-- `ExecutionDAG.topological_sort` (Kahn); an incomplete order raises the
cycle error. -/
def topologicalSort (dag : ExecutionDAG) : Except String (List String) :=
  let degs := degInit dag
  let order := kahnLoop dag dag.nodes.length
    ((dag.nodeIds).filter (fun id => degs id = 0)) degs []
  if order.length = dag.nodes.length then .ok order
  else .error "ExecutionDAG contains a cycle"

/-- The level computation of `parallel_groups`: walk the topological order,
assigning `max(level of predecessors) + 1` (0 without predecessors).  The
`getD 0` default models `level_of[p]`; in a successful sort every
predecessor is assigned before use (proved below). -/
def levelsFromOrder (dag : ExecutionDAG) (order : List String) : List (String × Nat) :=
  order.foldl (fun acc nid =>
    let preds := dag.predecessors nid
    let lvl := if preds.isEmpty then 0
      else (preds.map (fun p => (acc.lookup p).getD 0)).foldl max 0 + 1
    acc ++ [(nid, lvl)]) []

/-- `ExecutionDAG.parallel_groups`: group the level assignment by equal
level, ascending. -/
def parallelGroups (dag : ExecutionDAG) : Except String (List (List String)) := do
  let order ← topologicalSort dag
  let lv := levelsFromOrder dag order
  let maxLvl := (lv.map (·.2)).foldl max 0
  return ((List.range (maxLvl + 1)).map
    (fun i => (lv.filter (fun nl => nl.2 = i)).map (·.1))).filter (fun g => !g.isEmpty)

/-- `StepMeta` (`blitztigerclaw/steps/__init__.py`): the fields the planner
reads. -/
structure StepMeta where
  defaultStrategy : String := "sync"
  strategyEscalations : List (Int × String) := []
  streamingBreakers : List String := []
  fusable : Bool := false
  isSource : Bool := false

/-- Python `key in config` for a step-level config, by key name. -/
def stepConfigHasKey (c : StepConfig) : String → Bool
  | "flatten" => c.flatten.isSome
  | "select" => c.select.isSome
  | "rename" => c.rename.isSome
  | "filter" => c.filter.isSome
  | "compute" => c.compute.isSome
  | "sort" => c.sort.isSome
  | "dedupe" => c.dedupe.isSome
  | "limit" => c.limit.isSome
  | "coerce" => !c.coerce.isEmpty
  | "defaults" => !c.defaults.isEmpty
  | "trim" => !c.trim.isEmpty
  | "lowercase" => !c.lowercase.isEmpty
  | "uppercase" => !c.uppercase.isEmpty
  | "replace" => !c.replace.isEmpty
  | "drop_nulls" => !c.dropNulls.isEmpty
  | "drop_empty" => !c.dropEmpty.isEmpty
  | "group_by" => c.groupBy.isSome
  | "functions" => !c.functions.isEmpty
  | "having" => c.having.isSome
  | "right" => c.right.isSome
  | "on" => c.joinOn.isSome
  | "left_on" => c.leftOn.isSome
  | "right_on" => c.rightOn.isSome
  | "how" => c.how.isSome
  | "select_right" => c.selectRight.isSome
  | "prefix_right" => c.prefixRight.isSome
  | _ => false

/-- Modelled from the spec: the `StepMeta` of the `transform` step.  The
module `blitztigerclaw/steps/transform.py` that registers it is not in the
source tree (only `blitz/steps/transform.py`, which carries the execute
logic but no `StepMeta`); spec section 4.3 declares transform "fusable;
streaming unless sort/dedupe/limit present". -/
def transformMeta : StepMeta :=
  { defaultStrategy := "sync",
    strategyEscalations := [(5000, "streaming")],
    streamingBreakers := ["sort", "dedupe", "limit"],
    fusable := true }

/-- `StepRegistry.get_meta` for the modelled steps (`clean`, `aggregate`,
`join` metas are from their source modules); an unregistered name raises
`ValueError`, which every planner caller turns into "not fusable" /
"sync". -/
def metaOf : String → Option StepMeta
  | "transform" => some transformMeta
  | "clean" => some { strategyEscalations := [(5000, "streaming")], fusable := true }
  | "aggregate" => some { strategyEscalations := [(50000, "multiprocess")] }
  | "join" => some {}
  | _ => none

/-- `Planner._is_fusable`: a `_fused` node is fusable iff every contained
op is fusable with no streaming-breaker key; otherwise the node's meta
must be fusable and its config free of the meta's streaming breakers. -/
def isFusableNode (node : DagNode) : Bool :=
  if node.stepType = "_fused" then
    node.config.fusedOps.all (fun op =>
      match metaOf op.1 with
      | none => false
      | some m => m.fusable && !(m.streamingBreakers.any (stepConfigHasKey op.2)))
  else
    match metaOf node.stepType with
    | none => false
    | some m => m.fusable && !(m.streamingBreakers.any (stepConfigHasKey node.config.step))

/-- `Planner._clean_config`: drop the planner-internal (underscore) keys,
keeping the step-level keys. -/
def cleanConfig (c : NodeConfig) : StepConfig := c.step

/-- The op list a node contributes to a fusion
(`node.config.get("_fused_ops") or [{type, config}]`; an empty list is
falsy and falls back, like an absent key). -/
def opsOf (node : DagNode) : List (String × StepConfig) :=
  if node.config.fusedOps.isEmpty then [(node.stepType, cleanConfig node.config)]
  else node.config.fusedOps

/-- The merged node built by one `_pass_fuse_operators` step: step type
`_fused`, config carrying only `_fused_ops` with the two op lists
concatenated in order. -/
def fuseNodes (a b : DagNode) : DagNode :=
  { id := a.id, stepType := "_fused",
    config := { step := {}, fusedOps := opsOf a ++ opsOf b, neededFields := none } }

/-- The per-pair eligibility test of the fusion pass: both fusable, the
first with exactly one successor (the second), the second with exactly one
predecessor. -/
def fusionEligible (dag : ExecutionDAG) (a b : DagNode) : Prop :=
  isFusableNode a = true ∧ isFusableNode b = true ∧
  dag.successors a.id = [b.id] ∧ (dag.predecessors b.id).length = 1

instance (dag : ExecutionDAG) (a b : DagNode) : Decidable (fusionEligible dag a b) := by
  unfold fusionEligible; infer_instance

/-!
Executor semantics.  Data-level model of `DagExecutor` and the sequential
driver: per-node contexts only exchange `data`/`inputs` with the steps
modelled here (none reads or writes `vars`), durations and schema
inference are metadata the properties below do not mention, and within a
parallel level the nodes are data-independent, so the concurrent
`asyncio.gather` is modelled by in-order execution.
-/

/-- Strategy dispatch of `DagExecutor._execute_step` collapsed to
`execute()`: for the modelled steps `execute_async` and `execute_pooled`
are the `BaseStep` defaults delegating to `execute()`, and every verified
property runs nodes whose resolved strategy is `sync`. -/
def stepExecByType (stepType : String) (cfg : StepConfig) (data : Dataset)
    (inputs : List (String × Dataset)) : Except String Dataset :=
  if stepType = "transform" then transformExec cfg data
  else if stepType = "clean" then .ok (cleanExec cfg data)
  else if stepType = "aggregate" then aggregateExec cfg data
  else if stepType = "join" then joinExec cfg data inputs
  else .error "ValueError: unknown step type"

/-- `DagExecutor._execute_fused`: run each contained op's `execute`
sequentially, each on a fresh sub-context holding the previous op's
output (sub-contexts carry no `inputs`). -/
def execFusedOps (ops : List (String × StepConfig)) (data : Dataset) :
    Except String Dataset :=
  ops.foldlM (fun d op => stepExecByType op.1 op.2 d []) data

/-- Execution of one DAG node (`DagExecutor._execute_node` dispatch): a
`_fused` node runs its op list via `_execute_fused` (reading `_fused_ops`
from the unstripped config); any other node runs its step on the
underscore-stripped config (`cleanConfig`). -/
def execNodeSem (node : DagNode) (data : Dataset)
    (inputs : List (String × Dataset)) : Except String Dataset :=
  if node.stepType = "_fused" then execFusedOps node.config.fusedOps data
  else stepExecByType node.stepType (cleanConfig node.config) data inputs

/-- `DagExecutor._gather_inputs`: roots copy the driver data; other nodes
take the first predecessor's stored result (the executor hands over the
stored list itself — the aliasing consequences are modelled separately in
the heap section below). -/
def gatherInputs (dag : ExecutionDAG) (results : List (String × Dataset))
    (ctxData : Dataset) (nodeId : String) : Dataset :=
  match dag.predecessors nodeId with
  | [] => ctxData
  | p :: _ => (results.lookup p).getD []

/-- The secondary inputs placed in `context.inputs` for a multi-input
node: every in-edge whose source has a stored result and is not the
primary predecessor contributes its port. -/
def secondaryInputs (dag : ExecutionDAG) (results : List (String × Dataset))
    (nodeId : String) : List (String × Dataset) :=
  match dag.predecessors nodeId with
  | [] => []
  | [_] => []
  | primary :: _ =>
    (dag.inEdges nodeId).filterMap (fun e =>
      if e.source ≠ primary then
        (results.lookup e.source).map (fun d => (e.port, d))
      else none)

/-- The node-by-node traversal of `DagExecutor.execute` (flattened level
order).  Faithfully to `_execute_node`, there is no exception handling
here: a failing step aborts the whole traversal. -/
def dagExecuteNodes (dag : ExecutionDAG) (ctxData : Dataset) :
    List String → List (String × Dataset) →
    Except String (List (String × Dataset))
  | [], results => .ok results
  | nid :: rest, results =>
    match dag.nodes.lookup nid with
    | none => .error "internal error: unknown node id"
    | some node => do
      let input := gatherInputs dag results ctxData nid
      let inputs := secondaryInputs dag results nid
      let out ← execNodeSem node input inputs
      dagExecuteNodes dag ctxData rest (results ++ [(nid, out)])

/-- `DagExecutor.execute`: run all parallel groups in level order, then
set the driver data from the unique leaf, or the concatenation over
leaves in leaf order (no leaves: driver data unchanged). -/
def dagExecute (dag : ExecutionDAG) (ctxData : Dataset) :
    Except String Dataset := do
  let groups ← parallelGroups dag
  let results ← dagExecuteNodes dag ctxData groups.flatten []
  match dag.leaves with
  | [] => return ctxData
  | [l] => return (results.lookup l).getD []
  | ls => return ls.foldl (fun acc l => acc ++ ((results.lookup l).getD [])) []

/-- The DAG path of `Pipeline.run`: every non-resume run goes through
`_run_dag` → `DagExecutor.execute`.  The pipeline's `on_error` flag is
accepted (it is part of the definition) but — faithfully to the source —
never consulted on this path: `DagExecutor` contains no `try`/`except`
around a step. -/
def runPipelineDag (_onError : String) (dag : ExecutionDAG)
    (initData : Dataset) : Except String Dataset :=
  dagExecute dag initData

/-- One step record (`Context.log_step` / `StepResult`), without the
wall-clock duration. -/
structure StepOutcome where
  stepIndex : Nat
  stepType : String
  rowCount : Nat
  errors : List String
deriving Repr, DecidableEq

/-- The loop body chain of `Pipeline._run_sequential` from step
`startIndex`: run each step; on an exception consult `on_error` — `stop`
(or any unknown value) re-raises a `StepError`, `skip` appends the message
to the step record, keeps the previous dataset as the step's contribution
and continues with the remaining steps. -/
def runSequentialGo (onError : String) :
    List (String × StepConfig) → Nat → Dataset → List StepOutcome →
    Except String (Dataset × List StepOutcome)
  | [], _, data, results => .ok (data, results)
  | (stepName, cfg) :: rest, i, data, results =>
    match stepExecByType stepName cfg data [] with
    | .ok result =>
      runSequentialGo onError rest (i + 1) result
        (results ++ [⟨i, stepName, result.length, []⟩])
    | .error e =>
      if onError = "skip" then
        runSequentialGo onError rest (i + 1) data
          (results ++ [⟨i, stepName, data.length, [e]⟩])
      else .error ("StepError " ++ stepName ++ ": " ++ e)

/-- `Pipeline._run_sequential` (fresh run, `start_step = 0`). -/
def runSequential (onError : String) (steps : List (String × StepConfig))
    (initData : Dataset) : Except String (Dataset × List StepOutcome) :=
  runSequentialGo onError steps 0 initData []

/-!
Streaming primitives (`blitztigerclaw/stream.py`).  The channel is
modelled as the queue contents plus the counters; `put`/`get` suspension
is modelled by the `none` / `blocked` outcomes.
-/

/-- An entry of the channel's `asyncio.Queue`: a row or the `STREAM_END`
sentinel object. -/
inductive QItem where
  | row (r : Row)
  | endMark
deriving Repr

/-- `BackpressureChannel` state. -/
structure Channel where
  maxsize : Nat
  queue : List QItem
  done : Bool
  totalIn : Nat
  totalOut : Nat
deriving Repr

/-- `BackpressureChannel(maxsize)` (constructor default 5000). -/
def Channel.init (maxsize : Nat) : Channel :=
  { maxsize := maxsize, queue := [], done := false, totalIn := 0, totalOut := 0 }

/-- `put(item)`: enqueue and count; blocks (suspends) while the queue is
full — modelled as `none`. -/
def chPut (ch : Channel) (r : Row) : Option Channel :=
  if ch.queue.length < ch.maxsize then
    some { ch with queue := ch.queue ++ [.row r], totalIn := ch.totalIn + 1 }
  else none

/-- `close()`: set `_done` and enqueue the sentinel behind everything
already buffered (the raw `queue.put` — not counted in `total_in`; it can
likewise block on a full queue). -/
def chClose (ch : Channel) : Option Channel :=
  if ch.queue.length < ch.maxsize then
    some { ch with queue := ch.queue ++ [.endMark], done := true }
  else none

/-- What one `get()` call observes. -/
inductive GetResult where
  | blocked
  | ended
  | row (r : Row)
deriving Repr

/-- `get()`: dequeue the head; the sentinel is consumed and reported as
`None` ("end") without touching `total_out`; a data row increments
`total_out`; an empty queue suspends. -/
def chGet (ch : Channel) : GetResult × Channel :=
  match ch.queue with
  | [] => (.blocked, ch)
  | .endMark :: rest => (.ended, { ch with queue := rest })
  | .row r :: rest => (.row r, { ch with queue := rest, totalOut := ch.totalOut + 1 })

/-- Put a whole list of rows (`put_batch`); blocks if any put would. -/
def chPutAll (ch : Channel) (rows : List Row) : Option Channel :=
  rows.foldlM chPut ch

/-- Perform `n` consecutive `get()` calls, collecting the observations. -/
def chGetN : Nat → Channel → List GetResult × Channel
  | 0, ch => ([], ch)
  | n + 1, ch =>
    let rc := chGet ch
    let rest := chGetN n rc.2
    (rc.1 :: rest.1, rest.2)

/-- `AdaptiveSemaphore` state: the adjustable limit, the ceiling, the
outcome counters and the (never consulted) evaluation window.  The inner
`asyncio.Semaphore` holder bookkeeping is concurrency-only and carries no
extra state relevant to the limit. -/
structure AdaptiveSemaphore where
  current : Nat
  maxConcurrent : Nat
  errors : Nat
  successes : Nat
  window : Nat
deriving Repr, DecidableEq

/-- `AdaptiveSemaphore(initial, max_concurrent)` (defaults 10, 50);
`_window = 20`. -/
def AdaptiveSemaphore.init (initial maxConcurrent : Nat) : AdaptiveSemaphore :=
  { current := initial, maxConcurrent := maxConcurrent,
    errors := 0, successes := 0, window := 20 }

/-- `release(success)`: release the inner semaphore and count the reported
outcome.  This is, faithfully to the source, the complete effect: no
branch of the class ever reads `_window` or writes `_current`. -/
def AdaptiveSemaphore.release (s : AdaptiveSemaphore) (success : Bool) :
    AdaptiveSemaphore :=
  if success then { s with successes := s.successes + 1 }
  else { s with errors := s.errors + 1 }

/-- A sequence of completions reported through `release`. -/
def AdaptiveSemaphore.releaseAll (s : AdaptiveSemaphore) (reports : List Bool) :
    AdaptiveSemaphore :=
  reports.foldl AdaptiveSemaphore.release s

/-- The `current_limit` property. -/
def AdaptiveSemaphore.currentLimit (s : AdaptiveSemaphore) : Nat :=
  s.current

/-!
Heap model for the in-place `compute` of `TransformStep.execute` (source
steps 5: `row[field_name] = expr(row)` mutates the input row objects) and
the result sharing of `DagExecutor` (`_gather_inputs` hands a node the
predecessor's stored `NodeResult.data` list itself; `Context.set_data` and
`data = list(self.context.data)` copy the list but not the rows).  Rows
live in a heap indexed by `RowId`; stored results and step inputs are
lists of row ids, so aliasing is explicit.
-/

/-- A heap address of one Python row object. -/
abbrev RowId := Nat

/-- The executor's state as seen by the heap model: the row heap and the
`_results` table mapping a node id to the ids of its stored rows. -/
structure HeapState where
  heap : RowId → Row
  results : List (String × List RowId)

/-- One compute field applied in place to every row of the input list
(the inner `for row in data` loop). -/
def computeFieldHeap (f : String) (e : PyExpr) (ids : List RowId)
    (heap : RowId → Row) : RowId → Row :=
  ids.foldl (fun h id =>
    fun x => if x = id then rowSet (h id) f (pyEvalV e (h id)) else h x) heap

/-- The compute block (step 5) of `TransformStep.execute` on the heap:
compile each expression, then mutate every row in place, field by field. -/
def transformComputeHeap (computes : List (String × PyExpr)) (ids : List RowId)
    (heap : RowId → Row) : Except String (RowId → Row) :=
  computes.foldlM (fun h fe =>
    if validateAst fe.2 then .ok (computeFieldHeap fe.1 fe.2 ids h)
    else .error EXPR_ERR) heap

/-- `DagExecutor._execute_node` for a transform node whose config is
`compute` only (no flatten/select/rename, which build fresh rows, and no
filter/sort/dedupe/limit): gather the predecessor's stored row ids (the
stored list itself), mutate those rows in place, and store the node's
result — the same row ids. -/
def execComputeNodeHeap (computes : List (String × PyExpr))
    (predId nodeId : String) (st : HeapState) : Except String HeapState := do
  let ids := (st.results.lookup predId).getD []
  let heap2 ← transformComputeHeap computes ids st.heap
  return { heap := heap2, results := st.results ++ [(nodeId, ids)] }

/-!
Remaining definitions used by the theorems: the spec-side rejection
predicate for the expression sandbox, and concrete pipeline artefacts for
the scenario-style properties.
-/

mutual

/-- Modelled from the spec: the set of constructs section 4.1 says
expression compilation rejects — a reference to a blocklisted dangerous
name, an attribute access whose attribute is outside the allow-list, and a
free-function call whose function is outside the allow-list, anywhere in
the expression.  (Imports, also listed there, are not representable in an
`eval`-mode AST.)  This predicate follows the spec's words; the code-side
check is `validateAst`. -/
def specForbidden : PyExpr → Bool
  | .const _ => false
  | .name id => BLOCKED_NAMES.contains id
  | .compare l rest => specForbidden l || specForbiddenChain rest
  | .boolAnd vs => specForbiddenList vs
  | .boolOr vs => specForbiddenList vs
  | .binop _ l r => specForbidden l || specForbidden r
  | .unaryNot e => specForbidden e
  | .unaryNeg e => specForbidden e
  | .attr obj a => !SAFE_BUILTINS.contains a || specForbidden obj
  | .call f args =>
    (match f with
     | .name id => !SAFE_BUILTINS.contains id
     | _ => false) || specForbidden f || specForbiddenList args
  | .ifExp t b o => specForbidden t || specForbidden b || specForbidden o

def specForbiddenChain : CmpChain → Bool
  | .nil => false
  | .cons _ c rest => specForbidden c || specForbiddenChain rest

def specForbiddenList : PEList → Bool
  | .nil => false
  | .cons e tl => specForbidden e || specForbiddenList tl

end

/-- An attribute access outside the allow-list (`x.foo`). -/
def exprAttrOutside : PyExpr := .attr (.name "x") "foo"

/-- The select-only transform config of the filter-pushdown pass: its
non-internal keys are exactly the set containing `select`. -/
def selectOnlyCfg (fs : List String) : StepConfig := { select := some fs }

/-- The filter-only transform config of the filter-pushdown pass: its
non-internal keys are exactly the set containing `filter`. -/
def filterOnlyCfg (p : PyExpr) : StepConfig := { filter := some p }

/-- Scenario 5 input data `[{c:"x",n:1},{c:"x",n:3},{c:"y",n:2}]`. -/
def aggC6Data : Dataset :=
  [[("c", .str "x"), ("n", .int 1)],
   [("c", .str "x"), ("n", .int 3)],
   [("c", .str "y"), ("n", .int 2)]]

/-- Scenario 5 config `group_by:[c], functions:{s:"sum(n)", k:"count(n)"},
sort:"s desc"`. -/
def aggC6Cfg : StepConfig :=
  { groupBy := some (.many ["c"]),
    functions := [("s", "sum(n)"), ("k", "count(n)")],
    sort := some "s desc" }

/-- What the code produces on Scenario 5: the sums are Python floats. -/
def aggC6CodeOutput : Dataset :=
  [[("c", .str "x"), ("s", .float 4), ("k", .int 2)],
   [("c", .str "y"), ("s", .float 2), ("k", .int 1)]]

/-- The claimed Scenario 5 output with `s` an integer. -/
def aggC6ClaimOutput : Dataset :=
  [[("c", .str "x"), ("s", .int 4), ("k", .int 2)],
   [("c", .str "y"), ("s", .int 2), ("k", .int 1)]]

/-- A transform config whose filter calls a blocklisted name, so the step
raises `ExpressionError` when it executes. -/
def c3FailCfg : StepConfig := { filter := some (.call (.name "eval") .nil) }

/-- A one-node DAG whose single step raises at execution time. -/
def c3Dag : ExecutionDAG :=
  { nodes := [("s0_transform",
      { id := "s0_transform", stepType := "transform",
        config := { step := c3FailCfg } })],
    edges := [] }

/-- A fusable two-node chain (transform filter → clean trim) for
exercising the fusion equivalence at a concrete input. -/
def c1Dag : ExecutionDAG :=
  { nodes := [("s0_transform",
      { id := "s0_transform", stepType := "transform",
        config := { step := { filter := some (.compare (.name "price")
          (.cons .gt (.const (.int 10)) .nil)) } } }),
     ("s1_clean",
      { id := "s1_clean", stepType := "clean",
        config := { step := { trim := ["name"] } } })],
    edges := [{ source := "s0_transform", target := "s1_clean" }] }

/-- The transform node of `c1Dag`. -/
def c1NodeA : DagNode :=
  { id := "s0_transform", stepType := "transform",
    config := { step := { filter := some (.compare (.name "price")
      (.cons .gt (.const (.int 10)) .nil)) } } }

/-- The clean node of `c1Dag`. -/
def c1NodeB : DagNode :=
  { id := "s1_clean", stepType := "clean",
    config := { step := { trim := ["name"] } } }

/-- Scenario 3 diamond graph: root `r`, children `a` and `b`, sink `s`. -/
def c7Dag : ExecutionDAG :=
  { nodes := [("r", { id := "r", stepType := "clean" }),
     ("a", { id := "a", stepType := "clean" }),
     ("b", { id := "b", stepType := "clean" }),
     ("s", { id := "s", stepType := "clean" })],
    edges := [{ source := "r", target := "a" },
      { source := "r", target := "b" },
      { source := "a", target := "s", port := "input_0" },
      { source := "b", target := "s", port := "input_1" }] }

/-- The channel state after successfully putting a list of rows. -/
def chAfterPuts (ch : Channel) (rows : List Row) : Channel :=
  { ch with queue := ch.queue ++ rows.map QItem.row, totalIn := ch.totalIn + rows.length }

/-- The channel state after the whole drain of `chGetN_drain`. -/
def chDrained (ch : Channel) (n : Nat) : Channel :=
  { ch with queue := [], totalOut := ch.totalOut + n }

/-- Planner well-formedness of a node (invariant of DAG construction plus
fusion): the `_fused_ops` key exists exactly on `_fused` nodes, and never
empty — `compile_linear`/`compile_graph` create nodes without it, and the
fusion pass creates `_fused` nodes carrying the concatenation of two
non-empty op lists. -/
def nodeWf (n : DagNode) : Prop :=
  (n.stepType = "_fused" → n.config.fusedOps.isEmpty = false) ∧
  (n.stepType ≠ "_fused" → n.config.fusedOps.isEmpty = true)

instance (n : DagNode) : Decidable (nodeWf n) := by
  unfold nodeWf; infer_instance

/-- Number of edges into `w` whose source lies outside `S`: the quantity the
Kahn loop's `in_degree[w]` entry tracks, `S` being the emitted prefix. -/
def cntIn (edges : List DagEdge) (w : String) (S : List String) : Nat :=
  (edges.filter (fun e => decide (e.target = w) && !(decide (e.source ∈ S)))).length

/-- `topoOk edges seen rest`: walking `rest` after `seen`, every element's
in-edges come from nodes already walked — the defining property of a
topological order relative to an emitted prefix. -/
def topoOk (edges : List DagEdge) : List String → List String → Prop
  | _, [] => True
  | seen, x :: rest =>
    (∀ e ∈ edges, e.target = x → e.source ∈ seen) ∧ topoOk edges (seen ++ [x]) rest

/-!
Theorems.
-/

theorem releaseAll_cons (s : AdaptiveSemaphore) (r : Bool) (rs : List Bool) :
    s.releaseAll (r :: rs) = (s.release r).releaseAll rs := rfl

theorem release_preserves_current (s : AdaptiveSemaphore) (r : Bool) :
    (s.release r).current = s.current := by
  cases r <;> rfl

/-- C5: For an `AdaptiveSemaphore(initial, max)`: each release reports
success or failure; the source's docstring and the spec then promise
halving (floor 1) on elevated error rate and +1 growth (ceiling `max`)
after every 20-completion window — but no code path ever reads `_window`
or writes `_current`, so after 20 failed completions the limit is still
the initial 10, and over any report sequence `current_limit` is constant. -/
theorem adaptive_semaphore_never_adjusts :
    ((AdaptiveSemaphore.init 10 50).releaseAll (List.replicate 20 false)).currentLimit = 10 ∧
    ((AdaptiveSemaphore.init 10 50).releaseAll (List.replicate 20 false)).errors = 20 ∧
    ∀ (s : AdaptiveSemaphore) (reports : List Bool),
      (s.releaseAll reports).currentLimit = s.currentLimit := by
  refine ⟨rfl, rfl, ?_⟩
  intro s reports
  induction reports generalizing s with
  | nil => rfl
  | cons r rs ih =>
    rw [releaseAll_cons, ih]
    exact release_preserves_current s r

/-- C9: `JoinStep.execute` returns the empty dataset whenever the left
input is empty — for every configuration (`how = outer` included) and
every right side — because of the `if not left_data: return []` guard that
runs before the right side is even loaded.  The second conjunct shows the
contrast: with a non-empty left input, the same outer-join config does
emit an unmatched right row. -/
theorem join_empty_left_returns_empty :
    (∀ (cfg : StepConfig) (inputs : List (String × Dataset)),
      joinExec cfg [] inputs = Except.ok []) ∧
    joinExec { joinOn := some "id", how := some "outer" }
      [[("id", .int 1)]] [("input_1", [[("id", .int 2), ("w", .str "B")]])]
      = Except.ok [[("id", .int 1)], [("id", .int 2), ("w", .str "B")]] := by
  constructor
  · intro cfg inputs; rfl
  · rfl

theorem chPutAll_spec (rows : List Row) (ch : Channel)
    (h : ch.queue.length + rows.length ≤ ch.maxsize) :
    chPutAll ch rows = some (chAfterPuts ch rows) := by
  induction rows generalizing ch with
  | nil =>
    show some ch = _
    simp [chAfterPuts]
  | cons r rs ih =>
    have hlt : ch.queue.length < ch.maxsize := by
      simp at h; omega
    show (chPut ch r).bind (fun c => chPutAll c rs) = _
    rw [chPut, if_pos hlt]
    show chPutAll _ rs = _
    rw [ih _ (by simp at h ⊢; omega)]
    simp [chAfterPuts, List.append_assoc]
    omega

theorem chGetN_succ (n : Nat) (ch : Channel) :
    chGetN (n + 1) ch =
      ((chGet ch).1 :: (chGetN n (chGet ch).2).1, (chGetN n (chGet ch).2).2) := rfl

theorem chGetN_drain (rows : List Row) (ch : Channel)
    (h : ch.queue = rows.map QItem.row ++ [QItem.endMark]) :
    chGetN (rows.length + 2) ch =
      (rows.map GetResult.row ++ [GetResult.ended, GetResult.blocked],
        chDrained ch rows.length) := by
  induction rows generalizing ch with
  | nil =>
    obtain ⟨ms, q, dn, ti, tOut⟩ := ch
    simp only at h
    subst h
    simp [chGetN, chGet, chDrained]
  | cons r rs ih =>
    obtain ⟨ms, q, dn, ti, tOut⟩ := ch
    simp only [List.map_cons, List.cons_append] at h
    subst h
    have hlen : (r :: rs).length + 2 = (rs.length + 2) + 1 := by simp
    rw [hlen, chGetN_succ]
    have hget :
        chGet ⟨ms, QItem.row r :: (rs.map QItem.row ++ [QItem.endMark]), dn, ti, tOut⟩ =
          (GetResult.row r,
            ⟨ms, rs.map QItem.row ++ [QItem.endMark], dn, ti, tOut + 1⟩) := rfl
    rw [hget]
    rw [ih _ rfl]
    simp [chDrained]
    omega

/-- C8 counterexample: after `close()` the first `get()` consumes the
sentinel and reports the end; a further `get()` finds an empty queue and
blocks — it does not return the end signal again.  This refutes "every
get() call made after the sentinel point returns the end signal rather
than a row or blocking". -/
theorem channel_second_get_after_sentinel_blocks :
    (chClose (Channel.init 5000)).map (fun ch => (chGetN 2 ch).1)
      = some [GetResult.ended, GetResult.blocked] ∧
    GetResult.blocked ≠ GetResult.ended := ⟨rfl, by simp⟩

/-- C8 amended: `close()` delivers the end-of-stream sentinel behind any
buffered items, and the first `get()` issued once the previously put rows
are consumed returns the end signal; that `get()` consumes the sentinel,
so subsequent `get()` calls block (they do not return the end signal
again).  `total_in` counts the rows put and `total_out` the rows
delivered, the sentinel in neither. -/
theorem channel_close_sentinel_behavior (rows : List Row) (m : Nat)
    (h : rows.length < m) :
    ∃ ch2, chPutAll (Channel.init m) rows = some (chAfterPuts (Channel.init m) rows) ∧
      (chAfterPuts (Channel.init m) rows).totalIn = rows.length ∧
      chClose (chAfterPuts (Channel.init m) rows) = some ch2 ∧
      ch2.totalIn = rows.length ∧
      (chGetN (rows.length + 2) ch2).1
        = rows.map GetResult.row ++ [GetResult.ended, GetResult.blocked] ∧
      (chGetN (rows.length + 2) ch2).2.totalOut = rows.length ∧
      (chGetN (rows.length + 2) ch2).2.totalIn = rows.length := by
  have hq : (chAfterPuts (Channel.init m) rows).queue.length < m := by
    simp [chAfterPuts, Channel.init]; omega
  have hclose : chClose (chAfterPuts (Channel.init m) rows) =
      some { chAfterPuts (Channel.init m) rows with
               queue := (chAfterPuts (Channel.init m) rows).queue ++ [QItem.endMark],
               done := true } := by
    rw [chClose, if_pos (by simpa [chAfterPuts, Channel.init] using hq)]
  have hdrain := chGetN_drain rows
    { chAfterPuts (Channel.init m) rows with
        queue := (chAfterPuts (Channel.init m) rows).queue ++ [QItem.endMark],
        done := true }
    (by simp [chAfterPuts, Channel.init])
  refine ⟨_, chPutAll_spec rows (Channel.init m) (by simp [Channel.init]; omega),
    by simp [chAfterPuts, Channel.init], hclose,
    by simp [chAfterPuts, Channel.init], ?_, ?_, ?_⟩
  · rw [hdrain]
  · rw [hdrain]; simp [chDrained, chAfterPuts, Channel.init]
  · rw [hdrain]; simp [chDrained, chAfterPuts, Channel.init]

/-- Witness for the amended C8 at a concrete channel. -/
theorem channel_close_sentinel_behavior_witness :
    ([[("a", Value.int 1)]] : List Row).length < 5000 ∧
    ∃ ch2, chPutAll (Channel.init 5000) [[("a", Value.int 1)]]
        = some (chAfterPuts (Channel.init 5000) [[("a", Value.int 1)]]) ∧
      (chAfterPuts (Channel.init 5000) [[("a", Value.int 1)]]).totalIn = 1 ∧
      chClose (chAfterPuts (Channel.init 5000) [[("a", Value.int 1)]]) = some ch2 ∧
      ch2.totalIn = 1 ∧
      (chGetN 3 ch2).1 = [GetResult.row [("a", Value.int 1)],
        GetResult.ended, GetResult.blocked] ∧
      (chGetN 3 ch2).2.totalOut = 1 ∧ (chGetN 3 ch2).2.totalIn = 1 :=
  ⟨by decide, channel_close_sentinel_behavior [[("a", Value.int 1)]] 5000 (by decide)⟩

/-- C4 counterexample: the expression `x.foo` contains an attribute access
outside the allow-list — a construct the claim says `compile_expr` rejects
with a compile-time error — yet `_validate_ast` raises nothing (`true`
means the walk passes), so compilation returns an evaluator. -/
theorem expr_attr_not_rejected_at_compile :
    specForbidden exprAttrOutside = true ∧ validateAst exprAttrOutside = true :=
  ⟨rfl, rfl⟩

/-- C4 amended: the compile-time validator rejects exactly calls whose
function is a blocklisted bare name (imports cannot occur in an eval-mode
AST).  The other spec-listed constructs are not compile-time errors: an
attribute access outside the allow-list raises only during evaluation,
where the evaluator swallows it (or a null receiver) to null; and a
free-function call evaluates to null, because the function name resolves
to `row.get(name)`, which is data and never callable (the arguments are
not even evaluated). -/
theorem expr_sandbox_rejection_amended :
    (∀ (f : String) (args : PEList), BLOCKED_NAMES.contains f = true →
      validateAst (.call (.name f) args) = false) ∧
    (∀ (obj : PyExpr) (a : String) (row : Row), SAFE_BUILTINS.contains a = false →
      evalTopR (.attr obj a) row = .v .null) ∧
    (∀ (f : String) (args : PEList) (row : Row),
      evalTopR (.call (.name f) args) row = .v .null) := by
  refine ⟨?_, ?_, ?_⟩
  · intro f args hf
    show (!BLOCKED_NAMES.contains f && validateAst (.name f) && validateList args) = false
    rw [hf]
    rfl
  · intro obj a row ha
    have ha2 : a ∉ SAFE_BUILTINS := by simpa using ha
    rw [evalTopR]
    rw [show evalNode (.attr obj a) row = (evalNode obj row).bind (fun o =>
      if isNullR o then some (.v .null)
      else if SAFE_BUILTINS.contains a then getAttrR o a else none) from rfl]
    cases hobj : evalNode obj row with
    | none => rfl
    | some o =>
      simp only [Option.bind]
      by_cases hn : isNullR o
      · simp [hn]
      · simp [hn, ha2]
  · intro f args row
    rfl

/-- Witness for the amended C4 at concrete expressions and a concrete row. -/
theorem expr_sandbox_rejection_amended_witness :
    BLOCKED_NAMES.contains "eval" = true ∧
    SAFE_BUILTINS.contains "foo" = false ∧
    validateAst (.call (.name "eval") .nil) = false ∧
    evalTopR (.attr (.name "x") "foo") [("x", .int 1)] = .v .null ∧
    evalTopR (.call (.name "len") (.cons (.name "x") .nil)) [("x", .str "ab")] = .v .null := by
  refine ⟨by decide, by decide, ?_, ?_, ?_⟩
  · exact expr_sandbox_rejection_amended.1 "eval" .nil (by decide)
  · exact expr_sandbox_rejection_amended.2.1 (.name "x") "foo" [("x", .int 1)] (by decide)
  · exact expr_sandbox_rejection_amended.2.2 "len" (.cons (.name "x") .nil) [("x", .str "ab")]

/-- C6 counterexample: on Scenario 5 the aggregate's output is not the
claimed `[{c:"x",s:4,k:2},{c:"y",s:2,k:1}]` with `s` the integer sum —
`_compute_agg` coerces summed values through `float(...)`, so `s` comes
out as the float `4.0`, a different value in the data model. -/
theorem aggregate_scenario_not_integer_sum :
    aggregateExec aggC6Cfg aggC6Data ≠ Except.ok aggC6ClaimOutput := by
  have h : aggregateExec aggC6Cfg aggC6Data = Except.ok aggC6CodeOutput := by rfl
  rw [h]
  simp [aggC6CodeOutput, aggC6ClaimOutput]

/-- C6 amended: on Scenario 5 the aggregate produces exactly
`[{c:"x",s:4.0,k:2},{c:"y",s:2.0,k:1}]` — the groups in `s desc` order,
`count` counting the non-null `n` values per group, and `s` the float 4.0
(numerically 4, but a Python float, not an int). -/
theorem aggregate_scenario_float_sum :
    aggregateExec aggC6Cfg aggC6Data = Except.ok aggC6CodeOutput ∧
    rowGet (aggC6CodeOutput.headD []) "s" = .float 4 ∧
    pyEqV (.float 4) (.int 4) = true ∧ Value.float 4 ≠ Value.int 4 :=
  ⟨rfl, rfl, rfl, by simp⟩

theorem rowGet_selectRow (fs : List String) (row : Row) (id : String)
    (h : id ∈ fs) : rowGet (selectRow fs row) id = rowGet row id := by
  induction fs with
  | nil => cases h
  | cons f rest ih =>
    show rowGet ((f, rowGet row f) :: selectRow rest row) id = _
    rw [rowGet]
    by_cases hf : f = id
    · rw [if_pos hf, hf]
    · rw [if_neg hf]
      exact ih (by cases h with
        | head => exact absurd rfl hf
        | tail _ hm => exact hm)

mutual

theorem evalNode_selectRow : ∀ (e : PyExpr) (fs : List String) (row : Row),
    (∀ n ∈ namesOfE e, n ∈ fs) →
    evalNode e (selectRow fs row) = evalNode e row
  | .const v, fs, row, h => rfl
  | .name id, fs, row, h => by
    have hg := rowGet_selectRow fs row id (h id (by simp [namesOfE]))
    simp only [evalNode, hg]
  | .compare l rest, fs, row, h => by
    show (evalNode l (selectRow fs row)).bind (fun lv => evalChain lv rest (selectRow fs row))
      = (evalNode l row).bind (fun lv => evalChain lv rest row)
    rw [evalNode_selectRow l fs row (fun n hn => h n (by simp [namesOfE]; exact Or.inl (by simpa using hn)))]
    cases evalNode l row with
    | none => rfl
    | some lv =>
      simp only [Option.bind]
      exact evalChain_selectRow lv rest fs row
        (fun n hn => h n (by simp [namesOfE]; exact Or.inr (by simpa using hn)))
  | .boolAnd vs, fs, row, h => by
    show evalAll vs (selectRow fs row) = evalAll vs row
    exact evalAll_selectRow vs fs row (fun n hn => h n (by simpa [namesOfE] using hn))
  | .boolOr vs, fs, row, h => by
    show evalAny vs (selectRow fs row) = evalAny vs row
    exact evalAny_selectRow vs fs row (fun n hn => h n (by simpa [namesOfE] using hn))
  | .binop op l r, fs, row, h => by
    show (evalNode l (selectRow fs row)).bind _ = (evalNode l row).bind _
    rw [evalNode_selectRow l fs row (fun n hn => h n (by simp [namesOfE]; exact Or.inl hn)),
      evalNode_selectRow r fs row (fun n hn => h n (by simp [namesOfE]; exact Or.inr hn))]
  | .unaryNot e, fs, row, h => by
    show (evalNode e (selectRow fs row)).bind _ = (evalNode e row).bind _
    rw [evalNode_selectRow e fs row (fun n hn => h n (by simpa [namesOfE] using hn))]
  | .unaryNeg e, fs, row, h => by
    show (evalNode e (selectRow fs row)).bind _ = (evalNode e row).bind _
    rw [evalNode_selectRow e fs row (fun n hn => h n (by simpa [namesOfE] using hn))]
  | .attr obj a, fs, row, h => by
    show (evalNode obj (selectRow fs row)).bind _ = (evalNode obj row).bind _
    rw [evalNode_selectRow obj fs row (fun n hn => h n (by simpa [namesOfE] using hn))]
  | .call f args, fs, row, h => by
    show (evalNode f (selectRow fs row)).bind _ = (evalNode f row).bind _
    rw [evalNode_selectRow f fs row (fun n hn => h n (by simp [namesOfE]; exact Or.inl hn))]
    cases evalNode f row with
    | none => rfl
    | some fv =>
      simp only [Option.bind]
      cases fv with
      | v val => rfl
      | method recv m =>
        rw [evalArgs_selectRow args fs row (fun n hn => h n (by simp [namesOfE]; exact Or.inr hn))]
  | .ifExp t b o, fs, row, h => by
    show (evalNode t (selectRow fs row)).bind _ = (evalNode t row).bind _
    rw [evalNode_selectRow t fs row (fun n hn => h n (by simp [namesOfE]; exact Or.inl hn))]
    cases evalNode t row with
    | none => rfl
    | some tv =>
      simp only [Option.bind]
      cases ht : truthyR tv with
      | true =>
        simpa using evalNode_selectRow b fs row (fun n hn => h n (by simp [namesOfE]; exact Or.inr (Or.inl hn)))
      | false =>
        simpa using evalNode_selectRow o fs row (fun n hn => h n (by simp [namesOfE]; exact Or.inr (Or.inr hn)))

theorem evalChain_selectRow : ∀ (lv : RVal) (rest : CmpChain) (fs : List String) (row : Row),
    (∀ n ∈ namesOfChain rest, n ∈ fs) →
    evalChain lv rest (selectRow fs row) = evalChain lv rest row
  | _, .nil, _, _, _ => rfl
  | lv, .cons op c rest, fs, row, h => by
    show (evalNode c (selectRow fs row)).bind _ = (evalNode c row).bind _
    rw [evalNode_selectRow c fs row (fun n hn => h n (by simp [namesOfChain]; exact Or.inl hn))]
    cases evalNode c row with
    | none => rfl
    | some rv =>
      simp only [Option.bind]
      by_cases hnull : (isNullR lv || isNullR rv) = true
      · simp only [hnull, if_true]
      · simp only [hnull, if_false]
        cases applyCmpR op lv rv with
        | none => rfl
        | some res =>
          cases res with
          | false => simp
          | true =>
            simpa using evalChain_selectRow lv rest fs row
              (fun n hn => h n (by simp [namesOfChain]; exact Or.inr hn))

theorem evalAll_selectRow : ∀ (vs : PEList) (fs : List String) (row : Row),
    (∀ n ∈ namesOfList vs, n ∈ fs) →
    evalAll vs (selectRow fs row) = evalAll vs row
  | .nil, _, _, _ => rfl
  | .cons e tl, fs, row, h => by
    show (evalNode e (selectRow fs row)).bind _ = (evalNode e row).bind _
    rw [evalNode_selectRow e fs row (fun n hn => h n (by simp [namesOfList]; exact Or.inl hn))]
    cases evalNode e row with
    | none => rfl
    | some x =>
      simp only [Option.bind]
      cases hx : truthyR x with
      | false => simp [hx]
      | true =>
        simpa using evalAll_selectRow tl fs row (fun n hn => h n (by simp [namesOfList]; exact Or.inr hn))

theorem evalAny_selectRow : ∀ (vs : PEList) (fs : List String) (row : Row),
    (∀ n ∈ namesOfList vs, n ∈ fs) →
    evalAny vs (selectRow fs row) = evalAny vs row
  | .nil, _, _, _ => rfl
  | .cons e tl, fs, row, h => by
    show (evalNode e (selectRow fs row)).bind _ = (evalNode e row).bind _
    rw [evalNode_selectRow e fs row (fun n hn => h n (by simp [namesOfList]; exact Or.inl hn))]
    cases evalNode e row with
    | none => rfl
    | some x =>
      simp only [Option.bind]
      cases hx : truthyR x with
      | true => simp [hx]
      | false =>
        simpa using evalAny_selectRow tl fs row (fun n hn => h n (by simp [namesOfList]; exact Or.inr hn))

theorem evalArgs_selectRow : ∀ (args : PEList) (fs : List String) (row : Row),
    (∀ n ∈ namesOfList args, n ∈ fs) →
    evalArgs args (selectRow fs row) = evalArgs args row
  | .nil, _, _, _ => rfl
  | .cons e tl, fs, row, h => by
    show (evalNode e (selectRow fs row)).bind _ = (evalNode e row).bind _
    rw [evalNode_selectRow e fs row (fun n hn => h n (by simp [namesOfList]; exact Or.inl hn))]
    cases evalNode e row with
    | none => rfl
    | some x =>
      simp only [Option.bind]
      cases x with
      | v val =>
        rw [evalArgs_selectRow tl fs row (fun n hn => h n (by simp [namesOfList]; exact Or.inr hn))]
      | method recv m => rfl

end

theorem pyFilterKeep_selectRow (p : PyExpr) (fs : List String) (row : Row)
    (h : ∀ n ∈ namesOfE p, n ∈ fs) :
    pyFilterKeep p (selectRow fs row) = pyFilterKeep p row := by
  unfold pyFilterKeep evalTopR
  rw [evalNode_selectRow p fs row h]

theorem transformExec_selectOnly (fs : List String) (d : Dataset) :
    transformExec (selectOnlyCfg fs) d = .ok (d.map (selectRow fs)) := rfl

theorem transformExec_filterOnly (p : PyExpr) (d : Dataset) :
    transformExec (filterOnlyCfg p) d =
      if validateAst p = true then Except.ok (d.filter (pyFilterKeep p))
      else Except.error EXPR_ERR := by
  by_cases hv : validateAst p = true
  · simp [transformExec, filterOnlyCfg, hv]
    rfl
  · simp [transformExec, filterOnlyCfg, hv]

theorem filter_pushdown_safe (fs : List String) (p : PyExpr) (d : Dataset)
    (h : ∀ n ∈ namesOfE p, n ∈ fs) :
    (transformExec (selectOnlyCfg fs) d).bind (fun mid => transformExec (filterOnlyCfg p) mid)
      = (transformExec (filterOnlyCfg p) d).bind (fun mid => transformExec (selectOnlyCfg fs) mid) := by
  rw [transformExec_selectOnly, transformExec_filterOnly]
  by_cases hv : validateAst p = true
  · rw [if_pos hv]
    show transformExec (filterOnlyCfg p) _ = Except.ok _
    rw [transformExec_filterOnly, if_pos hv]
    congr 1
    rw [List.filter_map]
    congr 1
    apply List.filter_congr
    intro r _
    exact pyFilterKeep_selectRow p fs r h
  · rw [if_neg hv]
    show transformExec (filterOnlyCfg p) _ = Except.error _
    rw [transformExec_filterOnly, if_neg hv]

/-- C2: filter pushdown is semantics-preserving.  For every dataset, field
list `Fs` and filter expression `P` whose `Name` nodes (the only way the
compiled evaluator reads the row, call position included) all lie in `Fs`:
a select-only transform (`select = Fs`) followed by a filter-only
transform (`filter = P`) — the exact shapes `_pass_push_filters` matches
before calling `swap_adjacent` — produces the same rows in the same order
as the filter first and the select second. -/
theorem filter_pushdown_equivalence (fs : List String) (p : PyExpr) (d : Dataset)
    (h : ∀ n ∈ namesOfE p, n ∈ fs) :
    (transformExec (selectOnlyCfg fs) d).bind (fun mid => transformExec (filterOnlyCfg p) mid)
      = (transformExec (filterOnlyCfg p) d).bind (fun mid => transformExec (selectOnlyCfg fs) mid) :=
  filter_pushdown_safe fs p d h

/-- Witness for C2 at Scenario 2: `select:[id,val]` then `filter:"val>0"`
over `[{id:1,val:-1,extra:"x"},{id:2,val:5,extra:"y"}]`, both orders
giving `[{id:2,val:5}]`. -/
theorem filter_pushdown_equivalence_witness :
    (∀ n ∈ namesOfE (.compare (.name "val") (.cons .gt (.const (.int 0)) .nil)),
      n ∈ ["id", "val"]) ∧
    (transformExec (selectOnlyCfg ["id", "val"])
        [[("id", .int 1), ("val", .int (-1)), ("extra", .str "x")],
         [("id", .int 2), ("val", .int 5), ("extra", .str "y")]]).bind
      (fun mid => transformExec
        (filterOnlyCfg (.compare (.name "val") (.cons .gt (.const (.int 0)) .nil))) mid)
      = (transformExec
          (filterOnlyCfg (.compare (.name "val") (.cons .gt (.const (.int 0)) .nil)))
          [[("id", .int 1), ("val", .int (-1)), ("extra", .str "x")],
           [("id", .int 2), ("val", .int 5), ("extra", .str "y")]]).bind
        (fun mid => transformExec (selectOnlyCfg ["id", "val"]) mid) ∧
    (transformExec (selectOnlyCfg ["id", "val"])
        [[("id", .int 1), ("val", .int (-1)), ("extra", .str "x")],
         [("id", .int 2), ("val", .int 5), ("extra", .str "y")]]).bind
      (fun mid => transformExec
        (filterOnlyCfg (.compare (.name "val") (.cons .gt (.const (.int 0)) .nil))) mid)
      = Except.ok [[("id", .int 2), ("val", .int 5)]] :=
  ⟨fun n hn => by simp [namesOfE, namesOfChain] at hn; simp [hn],
   filter_pushdown_equivalence ["id", "val"]
     (.compare (.name "val") (.cons .gt (.const (.int 0)) .nil))
     [[("id", .int 1), ("val", .int (-1)), ("extra", .str "x")],
      [("id", .int 2), ("val", .int 5), ("extra", .str "y")]]
     (fun n hn => by simp [namesOfE, namesOfChain] at hn; simp [hn]),
   rfl⟩

theorem execFusedOps_append (ops1 ops2 : List (String × StepConfig)) (d : Dataset) :
    execFusedOps (ops1 ++ ops2) d
      = (execFusedOps ops1 d).bind (fun mid => execFusedOps ops2 mid) := by
  induction ops1 generalizing d with
  | nil => rfl
  | cons op rest ih =>
    show (stepExecByType op.1 op.2 d []).bind _ = ((stepExecByType op.1 op.2 d []).bind _).bind _
    cases stepExecByType op.1 op.2 d [] with
    | error e => rfl
    | ok mid => exact ih mid

theorem execFusedOps_singleton (op : String × StepConfig) (d : Dataset) :
    execFusedOps [op] d = stepExecByType op.1 op.2 d [] := by
  show (stepExecByType op.1 op.2 d []).bind _ = _
  cases stepExecByType op.1 op.2 d [] with
  | error e => rfl
  | ok mid => rfl

theorem execNodeSem_eq_fusedOps (n : DagNode) (hw : nodeWf n) (d : Dataset) :
    execNodeSem n d [] = execFusedOps (opsOf n) d := by
  by_cases ht : n.stepType = "_fused"
  · have hne := hw.1 ht
    rw [execNodeSem, if_pos ht, opsOf, if_neg (by simp [hne])]
  · have hz := hw.2 ht
    rw [execNodeSem, if_neg ht, opsOf, if_pos hz]
    exact (execFusedOps_singleton (n.stepType, cleanConfig n.config) d).symm

/-- C1: fusion safety.  For any two adjacent nodes the fusion pass merges
(each fusable per `_is_fusable` — `StepMeta.fusable` and no
streaming-breaker key, with `_fused` nodes fusable iff all contained ops
are — the first with exactly one successor, the second with exactly one
predecessor), executing the merged `_fused` node (each contained op's
`execute` run sequentially, each output feeding the next) on any input
dataset equals executing the two original nodes one after the other; both
sides also raise identically when an op raises. -/
theorem fusion_execution_equivalence (dag : ExecutionDAG) (a b : DagNode)
    (hwa : nodeWf a) (hwb : nodeWf b)
    (helig : fusionEligible dag a b) (d : Dataset) :
    execNodeSem (fuseNodes a b) d [] =
      (execNodeSem a d []).bind (fun mid => execNodeSem b mid []) := by
  have hfa : execNodeSem (fuseNodes a b) d [] = execFusedOps (opsOf a ++ opsOf b) d := rfl
  rw [hfa, execFusedOps_append, execNodeSem_eq_fusedOps a hwa d]
  cases execFusedOps (opsOf a) d with
  | error e => rfl
  | ok mid =>
    show execFusedOps (opsOf b) mid = execNodeSem b mid []
    rw [execNodeSem_eq_fusedOps b hwb mid]

/-- Witness for C1: the fusable chain `transform{filter: price>10} →
clean{trim:[name]}` of `c1Dag` on the Scenario 1 style dataset; fused and
sequential execution agree (both produce `[{price:20,qty:3,name:"b"}]`). -/
theorem fusion_execution_equivalence_witness :
    nodeWf c1NodeA ∧ nodeWf c1NodeB ∧ fusionEligible c1Dag c1NodeA c1NodeB ∧
    execNodeSem (fuseNodes c1NodeA c1NodeB)
        [[("price", .int 5), ("qty", .int 1), ("name", .str " a ")],
         [("price", .int 20), ("qty", .int 3), ("name", .str " b ")]] [] =
      (execNodeSem c1NodeA
        [[("price", .int 5), ("qty", .int 1), ("name", .str " a ")],
         [("price", .int 20), ("qty", .int 3), ("name", .str " b ")]] []).bind
        (fun mid => execNodeSem c1NodeB mid []) ∧
    execNodeSem (fuseNodes c1NodeA c1NodeB)
        [[("price", .int 5), ("qty", .int 1), ("name", .str " a ")],
         [("price", .int 20), ("qty", .int 3), ("name", .str " b ")]] []
      = Except.ok [[("price", .int 20), ("qty", .int 3), ("name", .str "b")]] :=
  ⟨by decide, by decide, by decide,
   fusion_execution_equivalence c1Dag c1NodeA c1NodeB (by decide) (by decide) (by decide) _,
   by rfl⟩

theorem runSequentialGo_skip_total (steps : List (String × StepConfig)) (i : Nat)
    (data : Dataset) (results : List StepOutcome) :
    ∃ out, runSequentialGo "skip" steps i data results = .ok out ∧
      out.2.length = results.length + steps.length := by
  induction steps generalizing i data results with
  | nil => exact ⟨(data, results), rfl, by simp⟩
  | cons step rest ih =>
    obtain ⟨stepName, cfg⟩ := step
    cases h : stepExecByType stepName cfg data [] with
    | ok result =>
      have hstep : runSequentialGo "skip" ((stepName, cfg) :: rest) i data results
          = runSequentialGo "skip" rest (i + 1) result
              (results ++ [⟨i, stepName, result.length, []⟩]) := by
        simp only [runSequentialGo, h]
      rw [hstep]
      obtain ⟨out, ho, hl⟩ := ih (i + 1) result
        (results ++ [⟨i, stepName, result.length, []⟩])
      exact ⟨out, ho, by simp at hl ⊢; omega⟩
    | error e =>
      have hstep : runSequentialGo "skip" ((stepName, cfg) :: rest) i data results
          = runSequentialGo "skip" rest (i + 1) data
              (results ++ [⟨i, stepName, data.length, [e]⟩]) := by
        simp only [runSequentialGo, h]
        rfl
      rw [hstep]
      obtain ⟨out, ho, hl⟩ := ih (i + 1) data
        (results ++ [⟨i, stepName, data.length, [e]⟩])
      exact ⟨out, ho, by simp at hl ⊢; omega⟩

theorem runSequentialGo_skip_error_step (stepName : String) (cfg : StepConfig)
    (rest : List (String × StepConfig)) (i : Nat) (data : Dataset)
    (results : List StepOutcome) (e : String)
    (h : stepExecByType stepName cfg data [] = .error e) :
    runSequentialGo "skip" ((stepName, cfg) :: rest) i data results
      = runSequentialGo "skip" rest (i + 1) data
          (results ++ [⟨i, stepName, data.length, [e]⟩]) := by
  simp only [runSequentialGo, h]
  rfl

/-- C3 amended: on the sequential driver path (`Pipeline._run_sequential`,
the path used for fresh runs before v0.4.0 and for checkpoint resume),
`on_error = skip` behaves as claimed — a failing step never aborts the
run (the driver always returns `ok`, with one step record per step, so
all subsequent steps still execute), and at the failing step the
exception's message is appended to that step's record while the dataset
passed on is the dataset from before the step.  The DAG execution path
does not share this behavior (see the counterexample). -/
theorem on_error_skip_sequential_semantics :
    (∀ (steps : List (String × StepConfig)) (initData : Dataset),
      ∃ out, runSequential "skip" steps initData = .ok out ∧
        out.2.length = steps.length) ∧
    (∀ (stepName : String) (cfg : StepConfig) (rest : List (String × StepConfig))
        (i : Nat) (data : Dataset) (results : List StepOutcome) (e : String),
      stepExecByType stepName cfg data [] = .error e →
      runSequentialGo "skip" ((stepName, cfg) :: rest) i data results
        = runSequentialGo "skip" rest (i + 1) data
            (results ++ [⟨i, stepName, data.length, [e]⟩])) := by
  constructor
  · intro steps initData
    obtain ⟨out, ho, hl⟩ := runSequentialGo_skip_total steps 0 initData []
    exact ⟨out, ho, by simpa using hl⟩
  · exact runSequentialGo_skip_error_step

/-- Witness for the amended C3: a two-step pipeline whose first step
raises; under `skip` the run succeeds with two step records, the first
carrying the error message and the untouched dataset flowing on. -/
theorem on_error_skip_sequential_semantics_witness :
    (∃ out, runSequential "skip" [("transform", c3FailCfg), ("clean", {})]
        [[("x", .int 1)]] = .ok out ∧ out.2.length = 2) ∧
    stepExecByType "transform" c3FailCfg [[("x", .int 1)]] [] = .error EXPR_ERR ∧
    runSequentialGo "skip" [("transform", c3FailCfg), ("clean", {})] 0 [[("x", .int 1)]] []
      = runSequentialGo "skip" [("clean", {})] 1 [[("x", .int 1)]]
          [⟨0, "transform", 1, [EXPR_ERR]⟩] ∧
    runSequential "skip" [("transform", c3FailCfg), ("clean", {})] [[("x", .int 1)]]
      = .ok ([[("x", .int 1)]],
          [⟨0, "transform", 1, [EXPR_ERR]⟩, ⟨1, "clean", 1, []⟩]) :=
  ⟨on_error_skip_sequential_semantics.1 [("transform", c3FailCfg), ("clean", {})]
     [[("x", .int 1)]],
   rfl,
   by
     have h := on_error_skip_sequential_semantics.2 "transform" c3FailCfg
       [("clean", {})] 0 [[("x", .int 1)]] [] EXPR_ERR rfl
     simpa using h,
   rfl⟩

/-- C3 counterexample: the claim extends the skip semantics to `every
execution path, including DAG execution`, but `DagExecutor._execute_node`
wraps no exception handling and `Pipeline.run` routes every fresh run
through the DAG path without consulting `on_error`; so with
`on_error = skip` a raising step still aborts the whole run. -/
theorem on_error_skip_ignored_on_dag_path :
    runPipelineDag "skip" c3Dag [[("x", .int 1)]] = Except.error EXPR_ERR ∧
    ∀ (out : Dataset), runPipelineDag "skip" c3Dag [[("x", .int 1)]] ≠ Except.ok out := by
  refine ⟨rfl, ?_⟩
  intro out h
  rw [show runPipelineDag "skip" c3Dag [[("x", .int 1)]] = Except.error EXPR_ERR from rfl] at h
  cases h

theorem rowHas_rowSet_self (r : Row) (k : String) (v : Value) :
    rowHas (rowSet r k v) k = true := by
  induction r with
  | nil => simp [rowSet, rowHas]
  | cons kv rest ih =>
    obtain ⟨k2, w⟩ := kv
    by_cases hk : k2 = k
    · simp [rowSet, hk, rowHas]
    · simp [rowSet, hk, rowHas, ih]

theorem rowHas_rowSet_mono (r : Row) (k f : String) (v : Value)
    (h : rowHas r f = true) : rowHas (rowSet r k v) f = true := by
  induction r with
  | nil => simp [rowHas] at h
  | cons kv rest ih =>
    obtain ⟨k2, w⟩ := kv
    simp [rowHas] at h
    by_cases hk : k2 = k
    · simp [rowSet, hk, rowHas]
      rcases h with h | h
      · exact Or.inl (hk ▸ h)
      · exact Or.inr h
    · simp [rowSet, hk, rowHas]
      rcases h with h | h
      · exact Or.inl h
      · exact Or.inr (ih h)

theorem computeFieldHeap_preserves (f : String) (e : PyExpr) (ids : List RowId)
    (heap : RowId → Row) (x : RowId) (f2 : String)
    (h : rowHas (heap x) f2 = true) :
    rowHas (computeFieldHeap f e ids heap x) f2 = true := by
  induction ids generalizing heap with
  | nil => exact h
  | cons i rest ih =>
    show rowHas (computeFieldHeap f e rest
      (fun y => if y = i then rowSet (heap i) f (pyEvalV e (heap i)) else heap y) x) f2 = true
    apply ih
    by_cases hx : x = i
    · subst hx
      simp only [if_pos rfl]
      exact rowHas_rowSet_mono _ _ _ _ h
    · simpa [hx] using h

theorem computeFieldHeap_sets (f : String) (e : PyExpr) (ids : List RowId)
    (heap : RowId → Row) (x : RowId) (hx : x ∈ ids) :
    rowHas (computeFieldHeap f e ids heap x) f = true := by
  induction ids generalizing heap with
  | nil => cases hx
  | cons i rest ih =>
    show rowHas (computeFieldHeap f e rest
      (fun y => if y = i then rowSet (heap i) f (pyEvalV e (heap i)) else heap y) x) f = true
    by_cases hmem : x ∈ rest
    · exact ih _ hmem
    · have hxi : x = i := by
        cases hx with
        | head => rfl
        | tail _ hm => exact absurd hm hmem
      apply computeFieldHeap_preserves
      subst hxi
      simp only [if_pos rfl]
      exact rowHas_rowSet_self _ _ _

theorem transformComputeHeap_preserves (computes : List (String × PyExpr))
    (ids : List RowId) (heap heap2 : RowId → Row) (x : RowId) (f2 : String)
    (hrun : transformComputeHeap computes ids heap = .ok heap2)
    (h : rowHas (heap x) f2 = true) : rowHas (heap2 x) f2 = true := by
  induction computes generalizing heap with
  | nil =>
    cases hrun
    exact h
  | cons fe rest ih =>
    unfold transformComputeHeap at hrun
    rw [List.foldlM_cons] at hrun
    by_cases hv : validateAst fe.2 = true
    · rw [if_pos hv] at hrun
      exact ih _ hrun (computeFieldHeap_preserves _ _ _ _ _ _ h)
    · rw [if_neg hv] at hrun
      cases hrun

theorem transformComputeHeap_sets : ∀ (computes : List (String × PyExpr))
    (ids : List RowId) (heap heap2 : RowId → Row),
    transformComputeHeap computes ids heap = .ok heap2 →
    ∀ fe ∈ computes, ∀ x ∈ ids, rowHas (heap2 x) fe.1 = true
  | [], _, _, _, _, fe, hfe => by cases hfe
  | fe0 :: rest, ids, heap, heap2, hrun, fe, hfe => by
    unfold transformComputeHeap at hrun
    rw [List.foldlM_cons] at hrun
    by_cases hv : validateAst fe0.2 = true
    · rw [if_pos hv] at hrun
      intro x hx
      cases hfe with
      | head =>
        exact transformComputeHeap_preserves rest ids _ _ x fe0.1 hrun
          (computeFieldHeap_sets _ _ _ _ _ hx)
      | tail _ hm =>
        exact transformComputeHeap_sets rest ids _ _ hrun fe hm x hx
    · rw [if_neg hv] at hrun
      cases hrun

theorem lookup_append_left {α β : Type} [BEq α] (l1 l2 : List (α × β)) (a : α)
    (v : β) (h : l1.lookup a = some v) : (l1 ++ l2).lookup a = some v := by
  induction l1 with
  | nil => simp [List.lookup] at h
  | cons kv rest ih =>
    obtain ⟨k1, b1⟩ := kv
    show List.lookup a ((k1, b1) :: (rest ++ l2)) = some v
    rw [List.lookup] at h ⊢
    cases hk : (a == k1) with
    | true => rw [hk] at h; exact h
    | false => rw [hk] at h; exact ih h

/-- C10: a transform node whose config is compute-only writes its computed
fields into the input row objects in place; since `_gather_inputs` hands
the node the predecessor's stored `NodeResult.data` list itself (the same
row ids), after the node runs the predecessor's recorded result — and any
fan-out sibling holding the same list — observes the added fields.  The
`_results` entry of the predecessor is untouched (same ids), the node's
own stored result is the same id list, and every row reachable through
either now carries every computed field. -/
theorem compute_mutates_shared_rows (computes : List (String × PyExpr))
    (predId nodeId : String) (st st2 : HeapState) (ids : List RowId)
    (hlookup : st.results.lookup predId = some ids)
    (hrun : execComputeNodeHeap computes predId nodeId st = .ok st2) :
    st2.results.lookup predId = some ids ∧
    st2.results = st.results ++ [(nodeId, ids)] ∧
    ∀ fe ∈ computes, ∀ id ∈ ids, rowHas (st2.heap id) fe.1 = true := by
  unfold execComputeNodeHeap at hrun
  rw [hlookup] at hrun
  simp only [Option.getD_some] at hrun
  cases hheap : transformComputeHeap computes ids st.heap with
  | error e =>
    rw [hheap] at hrun
    cases hrun
  | ok heap2 =>
    rw [hheap] at hrun
    cases hrun
    refine ⟨lookup_append_left _ _ _ _ hlookup, rfl, ?_⟩
    intro fe hfe id hid
    exact transformComputeHeap_sets computes ids st.heap heap2 hheap fe hfe id hid

/-- Witness for C10: one stored row `{x:1}` under node `A`; a compute-only
transform node `B` adds `y = x + 1`; afterwards `A`'s stored result still
points at the same row id, and that row — read through `A`'s result —
now carries the `y` field with value 2. -/
theorem compute_mutates_shared_rows_witness :
    ∃ st2, execComputeNodeHeap [("y", .binop .add (.name "x") (.const (.int 1)))]
        "A" "B" { heap := fun _ => [("x", .int 1)], results := [("A", [0])] } = .ok st2 ∧
      st2.results.lookup "A" = some [0] ∧
      st2.results = [("A", [0]), ("B", [0])] ∧
      (∀ fe ∈ [(("y" : String), PyExpr.binop .add (.name "x") (.const (.int 1)))],
        ∀ id ∈ [0], rowHas (st2.heap id) fe.1 = true) ∧
      st2.heap 0 = [("x", .int 1), ("y", .int 2)] := by
  refine ⟨_, rfl, ?_⟩
  have h := compute_mutates_shared_rows
    [("y", .binop .add (.name "x") (.const (.int 1)))] "A" "B"
    { heap := fun _ => [("x", .int 1)], results := [("A", [0])] } _ [0] rfl rfl
  exact ⟨h.1, h.2.1, h.2.2, rfl⟩

theorem cntIn_eq_zero {edges : List DagEdge} {w : String} {S : List String}
    (h : cntIn edges w S = 0) : ∀ e ∈ edges, e.target = w → e.source ∈ S := by
  intro e he ht
  unfold cntIn at h
  rw [List.length_eq_zero] at h
  have hh := List.filter_eq_nil_iff.mp h e he
  simp [ht] at hh
  exact hh

theorem cntIn_append (edges : List DagEdge) (w nid : String) (S : List String)
    (hnid : nid ∉ S) :
    cntIn edges w S =
      cntIn edges w (S ++ [nid]) +
        ((edges.filter (fun e => e.source = nid)).filter
          (fun e => e.target = w)).length := by
  unfold cntIn
  rw [List.filter_filter, ← List.countP_eq_length_filter,
    ← List.countP_eq_length_filter, ← List.countP_eq_length_filter]
  induction edges with
  | nil => simp
  | cons e rest ih =>
    by_cases h1 : e.target = w
    · by_cases h2 : e.source = nid
      · have h3 : ¬ e.source ∈ S := fun hh => hnid (h2 ▸ hh)
        rw [List.countP_cons_of_pos _ _ (by simp [h1, h3]),
          List.countP_cons_of_neg _ _ (by simp [h1, h2]),
          List.countP_cons_of_pos _ _ (by simp [h1, h2])]
        omega
      · by_cases h3 : e.source ∈ S
        · rw [List.countP_cons_of_neg _ _ (by simp [h3]),
            List.countP_cons_of_neg _ _ (by simp [h3]),
            List.countP_cons_of_neg _ _ (by simp [h2])]
          omega
        · rw [List.countP_cons_of_pos _ _ (by simp [h1, h3]),
            List.countP_cons_of_pos _ _ (by simp [h1, h2, h3]),
            List.countP_cons_of_neg _ _ (by simp [h2])]
          omega
    · rw [List.countP_cons_of_neg _ _ (by simp [h1]),
        List.countP_cons_of_neg _ _ (by simp [h1]),
        List.countP_cons_of_neg _ _ (by simp [h1])]
      omega

theorem nodup_snoc {l : List String} {a : String} (h : l.Nodup) (ha : a ∉ l) :
    (l ++ [a]).Nodup := by
  rw [List.nodup_append]
  exact ⟨h, List.nodup_singleton a,
    fun x hx hxa => ha ((List.mem_singleton.mp hxa) ▸ hx)⟩

theorem le_foldl_max_init : ∀ (l : List Nat) (a : Nat), a ≤ l.foldl max a
  | [], a => le_refl a
  | x :: l, a => le_trans (le_max_left a x) (le_foldl_max_init l (max a x))

theorem le_foldl_max_of_mem : ∀ (l : List Nat) (a x : Nat), x ∈ l → x ≤ l.foldl max a
  | [], _, _, hx => absurd hx (List.not_mem_nil _)
  | y :: l, a, x, hx => by
    rcases List.mem_cons.mp hx with h | h
    · subst h
      exact le_trans (le_max_right a x) (le_foldl_max_init l (max a x))
    · exact le_foldl_max_of_mem l (max a y) x h

theorem lookup_some_of_mem_keys {β : Type} : ∀ (l : List (String × β)) (a : String),
    a ∈ l.map (·.1) → ∃ b, l.lookup a = some b
  | [], a, h => absurd h (by simp)
  | (k, v) :: rest, a, h => by
    by_cases hk : a = k
    · refine ⟨v, ?_⟩
      rw [List.lookup_cons]
      have hbk : (a == k) = true := beq_iff_eq.mpr hk
      rw [hbk]
    · have h2 : a ∈ rest.map (·.1) := by simpa [hk] using h
      obtain ⟨b, hb⟩ := lookup_some_of_mem_keys rest a h2
      refine ⟨b, ?_⟩
      rw [List.lookup_cons]
      have hbk : (a == k) = false := beq_eq_false_iff_ne.mpr hk
      rw [hbk]
      exact hb

theorem lookup_none_of_not_mem_keys {β : Type} : ∀ (l : List (String × β)) (a : String),
    a ∉ l.map (·.1) → l.lookup a = none
  | [], _, _ => rfl
  | (k, v) :: rest, a, h => by
    have hk : ¬ a = k := fun hh => h (by simp [hh])
    have hbk : (a == k) = false := beq_eq_false_iff_ne.mpr hk
    rw [List.lookup_cons, hbk]
    exact lookup_none_of_not_mem_keys rest a
      (fun hh => h (by rw [List.map_cons]; exact List.mem_cons_of_mem _ hh))

theorem lookup_append_right_of_none {β : Type} : ∀ (l1 l2 : List (String × β)) (a : String),
    l1.lookup a = none → (l1 ++ l2).lookup a = l2.lookup a
  | [], _, _, _ => rfl
  | (k, v) :: rest, l2, a, h => by
    rw [List.lookup_cons] at h
    cases hbk : (a == k) with
    | true => rw [hbk] at h; simp at h
    | false =>
      rw [hbk] at h
      show List.lookup a ((k, v) :: (rest ++ l2)) = _
      rw [List.lookup_cons, hbk]
      exact lookup_append_right_of_none rest l2 a h

theorem lookup_eq_of_mem_nodup {β : Type} : ∀ (l : List (String × β)),
    (l.map (·.1)).Nodup → ∀ (a : String) (b : β), (a, b) ∈ l → l.lookup a = some b
  | [], _, _, _, h => absurd h (by simp)
  | (k, v) :: rest, hnd, a, b, hmem => by
    have hnd2 : (k :: rest.map (·.1)).Nodup := by
      rw [List.map_cons] at hnd
      exact hnd
    have hkr := List.nodup_cons.mp hnd2
    rcases List.mem_cons.mp hmem with heq | htl
    · injection heq with h1 h2
      subst h1
      subst h2
      rw [List.lookup_cons]
      have hbk : (a == a) = true := beq_iff_eq.mpr rfl
      rw [hbk]
    · have hk : ¬ a = k := by
        intro hh
        subst hh
        exact hkr.1 (List.mem_map.mpr ⟨(a, b), htl, rfl⟩)
      have hbk : (a == k) = false := beq_eq_false_iff_ne.mpr hk
      rw [List.lookup_cons, hbk]
      exact lookup_eq_of_mem_nodup rest hkr.2 a b htl

theorem processSuccs_inv (edges : List DagEdge) (nds : List String)
    (order : List String) (nid : String)
    (hnidO : nid ∉ order)
    (hvE : ∀ e ∈ edges, e.target ∈ nds)
    (hnidZ : cntIn edges nid order = 0)
    (hclosed : ∀ w ∈ order, ∀ e ∈ edges, e.target = w → e.source ∈ order) :
    ∀ (fs fsDone : List DagEdge) (deg : String → Int) (q : List String),
      edges.filter (fun e => e.source = nid) = fsDone ++ fs →
      (∀ w, deg w = (cntIn edges w order : Int) -
        ((fsDone.filter (fun e => e.target = w)).length : Int)) →
      (∀ w ∈ q, (fsDone.filter (fun e => e.target = w)).length = cntIn edges w order) →
      ((order ++ [nid]) ++ q).Nodup →
      (∀ w ∈ q, w ∈ nds) →
      (∀ w, (processSuccs deg q (fs.map (·.target))).1 w =
          (cntIn edges w order : Int) -
          (((edges.filter (fun e => e.source = nid)).filter
            (fun e => e.target = w)).length : Int)) ∧
      (∀ w ∈ (processSuccs deg q (fs.map (·.target))).2,
          ((edges.filter (fun e => e.source = nid)).filter
            (fun e => e.target = w)).length = cntIn edges w order) ∧
      ((order ++ [nid]) ++ (processSuccs deg q (fs.map (·.target))).2).Nodup ∧
      (∀ w ∈ (processSuccs deg q (fs.map (·.target))).2, w ∈ nds)
  | [], fsDone, deg, q => by
    intro hsplit hA1 hA2 hA3 hA4
    rw [List.append_nil] at hsplit
    subst hsplit
    exact ⟨hA1, hA2, hA3, hA4⟩
  | f :: fs', fsDone, deg, q => by
    intro hsplit hA1 hA2 hA3 hA4
    have hfmem : f ∈ edges.filter (fun e => e.source = nid) := by
      rw [hsplit]
      exact List.mem_append_right _ (List.mem_cons_self _ _)
    have hfE : f ∈ edges := List.mem_of_mem_filter hfmem
    have hfsrc : f.source = nid := by simpa using List.of_mem_filter hfmem
    have hcnt : ∀ w, ((fsDone ++ [f]).filter (fun e => e.target = w)).length =
        (fsDone.filter (fun e => e.target = w)).length +
          (if f.target = w then 1 else 0) := by
      intro w
      rw [List.filter_append, List.length_append]
      congr 1
      by_cases hw : f.target = w
      · simp [hw]
      · simp [hw]
    have hsplit2 : edges.filter (fun e => e.source = nid) = (fsDone ++ [f]) ++ fs' := by
      rw [hsplit]
      simp
    have hbound : ∀ w, ((fsDone ++ [f]).filter (fun e => e.target = w)).length ≤
        cntIn edges w order := by
      intro w
      have h1 := cntIn_append edges w nid order hnidO
      rw [hsplit2, List.filter_append, List.length_append] at h1
      omega
    have hA1' : ∀ w, (if w = f.target then deg f.target - 1 else deg w) =
        (cntIn edges w order : Int) -
          (((fsDone ++ [f]).filter (fun e => e.target = w)).length : Int) := by
      intro w
      by_cases hw : w = f.target
      · subst hw
        rw [if_pos rfl, hcnt f.target, if_pos rfl, hA1 f.target]
        push_cast
        ring
      · rw [if_neg hw, hcnt w, if_neg (fun hh => hw hh.symm), hA1 w]
        push_cast
        ring
    have hq2 : ∀ w ∈ q, ((fsDone ++ [f]).filter (fun e => e.target = w)).length =
        cntIn edges w order := by
      intro w hw
      have hold := hA2 w hw
      rw [hcnt w]
      by_cases hfw : f.target = w
      · exfalso
        have hb := hbound w
        rw [hcnt w, if_pos hfw] at hb
        omega
      · rw [if_neg hfw]
        omega
    have hA2' : ∀ w ∈ (if deg f.target - 1 = 0 then q ++ [f.target] else q),
        ((fsDone ++ [f]).filter (fun e => e.target = w)).length = cntIn edges w order := by
      intro w hw
      by_cases hd : deg f.target - 1 = 0
      · rw [if_pos hd] at hw
        rcases List.mem_append.mp hw with hw | hw
        · exact hq2 w hw
        · have hw : w = f.target := by simpa using hw
          subst hw
          have h1 := hA1 f.target
          rw [hcnt f.target, if_pos rfl]
          omega
      · rw [if_neg hd] at hw
        exact hq2 w hw
    have hA3' : ((order ++ [nid]) ++
        (if deg f.target - 1 = 0 then q ++ [f.target] else q)).Nodup := by
      by_cases hd : deg f.target - 1 = 0
      · rw [if_pos hd]
        have hnotq : f.target ∉ q := by
          intro hqm
          have h1 := hA2 f.target hqm
          have h2 := hA1 f.target
          omega
        have hnotnid : f.target ≠ nid := by
          intro he
          have h2 := hA1 f.target
          rw [he, hnidZ] at h2
          rw [he] at hd
          omega
        have hnotord : f.target ∉ order := by
          intro ho
          have := hclosed f.target ho f hfE rfl
          rw [hfsrc] at this
          exact hnidO this
        have hsn : (((order ++ [nid]) ++ q) ++ [f.target]).Nodup := by
          apply nodup_snoc hA3
          intro hmem
          rcases List.mem_append.mp hmem with hmem | hmem
          · rcases List.mem_append.mp hmem with hmo | hmo
            · exact hnotord hmo
            · exact hnotnid (by simpa using hmo)
          · exact hnotq hmem
        simpa [List.append_assoc] using hsn
      · rw [if_neg hd]
        exact hA3
    have hA4' : ∀ w ∈ (if deg f.target - 1 = 0 then q ++ [f.target] else q),
        w ∈ nds := by
      intro w hw
      by_cases hd : deg f.target - 1 = 0
      · rw [if_pos hd] at hw
        rcases List.mem_append.mp hw with hw | hw
        · exact hA4 w hw
        · have hw : w = f.target := by simpa using hw
          rw [hw]
          exact hvE f hfE
      · rw [if_neg hd] at hw
        exact hA4 w hw
    have hrec := processSuccs_inv edges nds order nid hnidO hvE hnidZ hclosed fs'
      (fsDone ++ [f]) (fun x => if x = f.target then deg f.target - 1 else deg x)
      (if deg f.target - 1 = 0 then q ++ [f.target] else q)
      hsplit2 hA1' hA2' hA3' hA4'
    simpa only [List.map_cons, processSuccs] using hrec

theorem kahnLoop_inv (dag : ExecutionDAG) (nds : List String)
    (hvE : ∀ e ∈ dag.edges, e.target ∈ nds) :
    ∀ (fuel : Nat) (q : List String) (deg : String → Int) (order : List String),
      (∀ w, deg w = (cntIn dag.edges w order : Int)) →
      (∀ w ∈ q, cntIn dag.edges w order = 0) →
      (order ++ q).Nodup →
      (∀ w ∈ q, w ∈ nds) →
      (∀ w ∈ order, ∀ e ∈ dag.edges, e.target = w → e.source ∈ order) →
      ∃ tail, kahnLoop dag fuel q deg order = order ++ tail ∧
        topoOk dag.edges order tail ∧
        (order ++ tail).Nodup ∧ (∀ w ∈ tail, w ∈ nds)
  | 0, q, deg, order => by
    intro h1 h2 h3 h4 h5
    refine ⟨[], by simp [kahnLoop], trivial, by simpa using h3.of_append_left, by simp⟩
  | fuel + 1, [], deg, order => by
    intro h1 h2 h3 h4 h5
    refine ⟨[], by simp [kahnLoop], trivial, by simpa using h3.of_append_left, by simp⟩
  | fuel + 1, nid :: rest, deg, order => by
    intro h1 h2 h3 h4 h5
    have hnidO : nid ∉ order := by
      rw [List.nodup_append] at h3
      intro ho
      exact h3.2.2 ho (List.mem_cons_self _ _)
    have hA3 : ((order ++ [nid]) ++ rest).Nodup := by
      simpa [List.append_assoc] using h3
    have hnidZ : cntIn dag.edges nid order = 0 := h2 nid (List.mem_cons_self _ _)
    obtain ⟨C1, C2, C3, C4⟩ := processSuccs_inv dag.edges nds order nid hnidO hvE hnidZ h5
      (dag.edges.filter (fun e => e.source = nid)) [] deg rest rfl
      (by intro w; simpa using h1 w)
      (by intro w hw; simpa using (h2 w (List.mem_cons_of_mem _ hw)).symm)
      hA3 (fun w hw => h4 w (List.mem_cons_of_mem _ hw))
    have hout : ∀ w, cntIn dag.edges w order =
        cntIn dag.edges w (order ++ [nid]) +
          ((dag.edges.filter (fun e => e.source = nid)).filter
            (fun e => e.target = w)).length :=
      fun w => cntIn_append dag.edges w nid order hnidO
    have hsucc : dag.successors nid =
        (dag.edges.filter (fun e => e.source = nid)).map (·.target) := rfl
    obtain ⟨tail', htl1, htl2, htl3, htl4⟩ := kahnLoop_inv dag nds hvE fuel
      (processSuccs deg rest ((dag.edges.filter (fun e => e.source = nid)).map (·.target))).2
      (processSuccs deg rest ((dag.edges.filter (fun e => e.source = nid)).map (·.target))).1
      (order ++ [nid])
      (by
        intro w
        have hc := C1 w
        have ho := hout w
        rw [hc, ho]
        push_cast
        ring)
      (by
        intro w hw
        have hc := C2 w hw
        have ho := hout w
        omega)
      C3 C4
      (by
        intro w hw e he ht
        rcases List.mem_append.mp hw with hw | hw
        · exact List.mem_append_left _ (h5 w hw e he ht)
        · have hw : w = nid := by simpa using hw
          subst hw
          exact List.mem_append_left _ (cntIn_eq_zero hnidZ e he ht))
    refine ⟨nid :: tail', ?_, ?_, ?_, ?_⟩
    · show kahnLoop dag (fuel + 1) (nid :: rest) deg order = _
      rw [kahnLoop, hsucc]
      rw [htl1]
      simp
    · exact ⟨fun e he ht => cntIn_eq_zero hnidZ e he ht, htl2⟩
    · simpa [List.append_assoc] using htl3
    · intro w hw
      rcases List.mem_cons.mp hw with hw | hw
      · rw [hw]
        exact h4 nid (List.mem_cons_self _ _)
      · exact htl4 w hw

theorem topologicalSort_props (dag : ExecutionDAG)
    (hv : dag.validEdges) (hnd : dag.nodeIds.Nodup) (order : List String)
    (hok : topologicalSort dag = .ok order) :
    topoOk dag.edges [] order ∧ order.Nodup ∧
      (∀ w ∈ order, w ∈ dag.nodeIds) ∧ order.length = dag.nodes.length := by
  simp only [topologicalSort] at hok
  split at hok
  case isTrue hlen =>
    have hdeg : ∀ w, degInit dag w = (cntIn dag.edges w [] : Int) := by
      intro w
      unfold degInit cntIn
      congr 1
      have hfc : List.filter (fun e => decide (e.target = w)) dag.edges =
          List.filter (fun e => decide (e.target = w) &&
            !decide (e.source ∈ ([] : List String))) dag.edges :=
        List.filter_congr (by intro e _; simp)
      rw [hfc]
    obtain ⟨tail, heq, htopo, hnodup, hmem⟩ := kahnLoop_inv dag dag.nodeIds
      (fun e he => (hv e he).2) dag.nodes.length
      ((dag.nodeIds).filter (fun id => degInit dag id = 0)) (degInit dag) []
      (fun w => hdeg w)
      (by
        intro w hw
        have h0 : degInit dag w = 0 := by simpa using List.of_mem_filter hw
        rw [hdeg w] at h0
        omega)
      (by simpa using hnd.filter _)
      (fun w hw => List.mem_of_mem_filter hw)
      (by intro w hw; cases hw)
    rw [List.nil_append] at heq
    rw [heq] at hok hlen
    cases hok
    exact ⟨by simpa using htopo, by simpa using hnodup, hmem, hlen⟩
  case isFalse hlen =>
    cases hok

theorem levelsFold_inv (dag : ExecutionDAG) :
    ∀ (order : List String) (acc : List (String × Nat)),
      topoOk dag.edges (acc.map (·.1)) order →
      (acc.map (·.1) ++ order).Nodup →
      ∃ tailL,
        order.foldl (fun acc nid =>
          let preds := dag.predecessors nid
          let lvl := if preds.isEmpty then 0
            else (preds.map (fun p => (acc.lookup p).getD 0)).foldl max 0 + 1
          acc ++ [(nid, lvl)]) acc = acc ++ tailL ∧
        tailL.map (·.1) = order ∧
        (∀ e ∈ dag.edges, e.target ∈ order →
          ∃ lu lw, (acc ++ tailL).lookup e.source = some lu ∧
            (acc ++ tailL).lookup e.target = some lw ∧ lu < lw) ∧
        (∀ nl ∈ tailL,
          ((dag.predecessors nl.1).isEmpty = true → nl.2 = 0) ∧
          ((dag.predecessors nl.1).isEmpty = false →
            (∀ p ∈ dag.predecessors nl.1,
              ∃ lp, (acc ++ tailL).lookup p = some lp) ∧
            nl.2 = ((dag.predecessors nl.1).map
              (fun p => ((acc ++ tailL).lookup p).getD 0)).foldl max 0 + 1))
  | [], acc => by
    intro hTopo hnd
    refine ⟨[], by simp, rfl, ?_, by simp⟩
    intro e he ht
    simp at ht
  | nid :: rest, acc => by
    intro hTopo hnd
    obtain ⟨hPreds, hTopo'⟩ := hTopo
    set lvl := (if (dag.predecessors nid).isEmpty then 0
      else ((dag.predecessors nid).map
        (fun p => (acc.lookup p).getD 0)).foldl max 0 + 1) with hlvl
    have hpk : ∀ p ∈ dag.predecessors nid, p ∈ acc.map (·.1) := by
      intro p hp
      simp only [ExecutionDAG.predecessors] at hp
      obtain ⟨e, hef, hpe⟩ := List.mem_map.mp hp
      have he2 := List.mem_of_mem_filter hef
      have htg : e.target = nid := by simpa using List.of_mem_filter hef
      exact hpe ▸ hPreds e he2 htg
    have hanid : nid ∉ acc.map (·.1) := by
      have hnd2 := hnd
      rw [List.nodup_append] at hnd2
      intro hin
      exact hnd2.2.2 hin (List.mem_cons_self _ _)
    have hTopoIH : topoOk dag.edges ((acc ++ [(nid, lvl)]).map (·.1)) rest := by
      have hkk : (acc ++ [(nid, lvl)]).map (·.1) = acc.map (·.1) ++ [nid] := by simp
      rw [hkk]
      exact hTopo'
    have hndIH : ((acc ++ [(nid, lvl)]).map (·.1) ++ rest).Nodup := by
      simpa [List.append_assoc] using hnd
    obtain ⟨tail', heq', hkeys', hedges', hentries'⟩ :=
      levelsFold_inv dag rest (acc ++ [(nid, lvl)]) hTopoIH hndIH
    have hres : (acc ++ [(nid, lvl)]) ++ tail' = acc ++ ((nid, lvl) :: tail') := by
      simp
    have hlooknid : (acc ++ ((nid, lvl) :: tail')).lookup nid = some lvl := by
      rw [lookup_append_right_of_none acc _ nid (lookup_none_of_not_mem_keys acc nid hanid)]
      rw [List.lookup_cons]
      have hb : (nid == nid) = true := beq_iff_eq.mpr rfl
      rw [hb]
    refine ⟨(nid, lvl) :: tail', ?_, ?_, ?_, ?_⟩
    · exact heq'.trans hres
    · simp [hkeys']
    · intro e he ht
      rcases List.mem_cons.mp ht with ht | ht
      · have hsrck : e.source ∈ acc.map (·.1) := hPreds e he ht
        obtain ⟨lu, hlu⟩ := lookup_some_of_mem_keys acc e.source hsrck
        have hpne : e.source ∈ dag.predecessors nid := by
          have hpd : dag.predecessors nid =
              (dag.edges.filter (fun x => x.target = nid)).map (·.source) := rfl
          rw [hpd]
          exact List.mem_map.mpr ⟨e, List.mem_filter.mpr ⟨he, by simp [ht]⟩, rfl⟩
        have hne : (dag.predecessors nid).isEmpty = false := by
          cases hpe : dag.predecessors nid with
          | nil => rw [hpe] at hpne; cases hpne
          | cons a l => rfl
        have hlvl_eq : lvl = ((dag.predecessors nid).map
            (fun p => (acc.lookup p).getD 0)).foldl max 0 + 1 := by
          rw [hlvl, hne]
          simp
        refine ⟨lu, lvl, lookup_append_left acc _ e.source lu hlu, ?_, ?_⟩
        · rw [ht]
          exact hlooknid
        · have hmem2 : (acc.lookup e.source).getD 0 ∈
              ((dag.predecessors nid).map (fun p => (acc.lookup p).getD 0)) :=
            List.mem_map.mpr ⟨e.source, hpne, rfl⟩
          have hle := le_foldl_max_of_mem _ 0 _ hmem2
          rw [hlu] at hle
          simp at hle
          omega
      · obtain ⟨lu, lw, p1, p2, p3⟩ := hedges' e he ht
        rw [hres] at p1 p2
        exact ⟨lu, lw, p1, p2, p3⟩
    · intro nl hnl
      rcases List.mem_cons.mp hnl with heq | hb
      · subst heq
        constructor
        · intro hemp
          show lvl = 0
          rw [hlvl, hemp]
          simp
        · intro hne
          have hlvl_eq : lvl = ((dag.predecessors nid).map
              (fun p => (acc.lookup p).getD 0)).foldl max 0 + 1 := by
            rw [hlvl, hne]
            simp
          constructor
          · intro p hp
            obtain ⟨lp, hlp⟩ := lookup_some_of_mem_keys acc p (hpk p hp)
            exact ⟨lp, lookup_append_left acc _ p lp hlp⟩
          · show lvl = _
            have hmapeq : (dag.predecessors nid).map
                (fun p => ((acc ++ ((nid, lvl) :: tail')).lookup p).getD 0) =
                (dag.predecessors nid).map (fun p => (acc.lookup p).getD 0) := by
              apply List.map_congr_left
              intro p hp
              obtain ⟨lp, hlp⟩ := lookup_some_of_mem_keys acc p (hpk p hp)
              rw [lookup_append_left acc _ p lp hlp, hlp]
            rw [hmapeq]
            exact hlvl_eq
      · have h := hentries' nl hb
        rw [hres] at h
        exact h

/-- C7: for every well-formed acyclic `ExecutionDAG` (edge endpoints name
existing nodes, node ids unique) on which Kahn's `topological_sort`
succeeds, the `parallel_groups` level assignment satisfies the spec's
invariant: a node with no predecessors gets level 0, any other node gets
`1 + max(level of predecessors)` with every predecessor's level already
assigned, every edge `u → v` has `level(v) > level(u)`, and consequently no
parallel group contains both endpoints of an edge. -/
theorem parallel_levels_sound (dag : ExecutionDAG) (hv : dag.validEdges)
    (hnd : dag.nodeIds.Nodup) (order : List String)
    (hok : topologicalSort dag = .ok order) :
    (∀ nl ∈ levelsFromOrder dag order,
      ((dag.predecessors nl.1).isEmpty = true → nl.2 = 0) ∧
      ((dag.predecessors nl.1).isEmpty = false →
        (∀ p ∈ dag.predecessors nl.1,
          ∃ lp, (levelsFromOrder dag order).lookup p = some lp) ∧
        nl.2 = ((dag.predecessors nl.1).map
          (fun p => ((levelsFromOrder dag order).lookup p).getD 0)).foldl max 0 + 1)) ∧
    (∀ e ∈ dag.edges, ∃ lu lw,
      (levelsFromOrder dag order).lookup e.source = some lu ∧
      (levelsFromOrder dag order).lookup e.target = some lw ∧ lu < lw) ∧
    (∀ gs, parallelGroups dag = .ok gs → ∀ g ∈ gs, ∀ e ∈ dag.edges,
      e.source ∈ g → e.target ∉ g) := by
  obtain ⟨htopo, hndO, hsub, hlen⟩ := topologicalSort_props dag hv hnd order hok
  obtain ⟨tailL, heq, hkeys, hedges, hentries⟩ := levelsFold_inv dag order []
    htopo (by simpa using hndO)
  have hlv : levelsFromOrder dag order = tailL := by
    unfold levelsFromOrder
    simpa using heq
  have hperm : ∀ x ∈ dag.nodeIds, x ∈ order := by
    have hsubp : List.Subperm order dag.nodeIds := List.Nodup.subperm hndO hsub
    have hlen2 : dag.nodeIds.length ≤ order.length := by
      unfold ExecutionDAG.nodeIds
      rw [List.length_map]
      omega
    have hp := List.Subperm.perm_of_length_le hsubp hlen2
    intro x hx
    exact hp.mem_iff.mpr hx
  have hedge_all : ∀ e ∈ dag.edges, ∃ lu lw,
      (levelsFromOrder dag order).lookup e.source = some lu ∧
      (levelsFromOrder dag order).lookup e.target = some lw ∧ lu < lw := by
    intro e he
    have ht : e.target ∈ order := hperm e.target (hv e he).2
    obtain ⟨lu, lw, p1, p2, p3⟩ := hedges e he ht
    rw [hlv]
    exact ⟨lu, lw, by simpa using p1, by simpa using p2, p3⟩
  have hkeysnd : (tailL.map (·.1)).Nodup := by
    rw [hkeys]
    exact hndO
  refine ⟨?_, hedge_all, ?_⟩
  · intro nl hnl
    have h := hentries nl (by rwa [hlv] at hnl)
    rw [hlv]
    simpa using h
  · intro gs hgs g hg e he hsrc htgt
    simp only [parallelGroups, hok, bind, Except.bind, pure, Except.pure,
      Except.ok.injEq] at hgs
    subst hgs
    obtain ⟨ghalf, _⟩ := List.mem_filter.mp hg
    obtain ⟨i, _, hgi⟩ := List.mem_map.mp ghalf
    subst hgi
    obtain ⟨nls, hnls, hnls2⟩ := List.mem_map.mp hsrc
    obtain ⟨nlt, hnlt, hnlt2⟩ := List.mem_map.mp htgt
    obtain ⟨ns1, ns2⟩ := nls
    obtain ⟨nt1, nt2⟩ := nlt
    have hfs : (ns1, ns2) ∈ levelsFromOrder dag order := List.mem_of_mem_filter hnls
    have hfs2 : ns2 = i := by simpa using List.of_mem_filter hnls
    have hft : (nt1, nt2) ∈ levelsFromOrder dag order := List.mem_of_mem_filter hnlt
    have hft2 : nt2 = i := by simpa using List.of_mem_filter hnlt
    obtain ⟨lu, lw, p1, p2, p3⟩ := hedge_all e he
    have hlus : (levelsFromOrder dag order).lookup ns1 = some ns2 := by
      rw [hlv]
      exact lookup_eq_of_mem_nodup tailL hkeysnd ns1 ns2 (by rwa [hlv] at hfs)
    have hlut : (levelsFromOrder dag order).lookup nt1 = some nt2 := by
      rw [hlv]
      exact lookup_eq_of_mem_nodup tailL hkeysnd nt1 nt2 (by rwa [hlv] at hft)
    have hes : ns1 = e.source := hnls2
    have het : nt1 = e.target := hnlt2
    rw [hes] at hlus
    rw [het] at hlut
    rw [p1] at hlus
    rw [p2] at hlut
    have h1 : lu = ns2 := (Option.some.injEq _ _ ▸ hlus).symm ▸ rfl
    have h2 : lw = nt2 := (Option.some.injEq _ _ ▸ hlut).symm ▸ rfl
    omega

/-- Witness for C7 on the Scenario 3 diamond: the edge `a → s` gets strictly
increasing levels under the computed order `[r, a, b, s]`. -/
theorem parallel_levels_sound_witness :
    ∃ lu lw, (levelsFromOrder c7Dag ["r", "a", "b", "s"]).lookup "a" = some lu ∧
      (levelsFromOrder c7Dag ["r", "a", "b", "s"]).lookup "s" = some lw ∧ lu < lw :=
  (parallel_levels_sound c7Dag (by decide) (by decide) ["r", "a", "b", "s"] rfl).2.1
    { source := "a", target := "s", port := "input_0" } (by decide)
